import Mathlib

/-!
# fstash: a verification development for `stash.go`

A shallow embedding of the single source file `stash.go` of `dc0d/fstash`
and theorems about it.

Conventions of the embedding.

* A Go `string` is a Lean `String` (so: valid UTF-8 text); `[]byte` is a
  `List Nat` whose elements are bytes (`< 256`).
* A path is the list of its segments below the filesystem root, already
  cleaned (`filepath.Clean`); `filepath.Join` is `filepathJoin`, which splits
  the joined elements at `/` and resolves empty, `.` and `..` segments.
* The filesystem is a tree of directories and regular files (`Node`); the
  state of the world (`World`) is that tree together with the trace of the
  calls made into `os`, `io/ioutil` and `path/filepath`.  A Go function
  returning `error` becomes a function from `World` to a result and a `World`.
* The standard-library behaviour the source relies on is written down in the
  first part of the file, each definition named after the Go function it
  stands for.  Two library facilities are not written down but taken as the
  fields of a `GoLib` parameter: the Unicode lower-casing table and the
  `text/template` / `encoding/json` machinery.
-/

namespace Fstash

/-! ## Errors -/

/-- The error values of the embedding: the two sentinel errors declared by
`stash.go`, the kinds of `os` errors a tree of files and directories can
produce, a run-time panic, and an error coming from the template library. -/
inductive Err where
  | invalidStashName
  | stashNotExist
  | notExist
  | notDir
  | isDir
  | runtimePanic
  | lib (msg : String)
  deriving DecidableEq, Repr

deriving instance DecidableEq for Except

/-- Go's `os.IsNotExist`. -/
def osIsNotExist : Err → Bool
  | .notExist => true
  | _ => false

/-- The library facilities that are taken as parameters. -/
structure GoLib where
  /-- Go's `unicode.ToLower`. -/
  unicodeToLower : Char → Char
  /-- The body of the `if raw != ""` branch of `expandTree`: parse `content` as
  a `text/template` named `key`, decode `raw` with `encoding/json`, execute. -/
  templateExpand : String → List Nat → String → Except Err (List Nat)

/-! ## Strings -/

/-- Go's `unicode.IsSpace` (the Unicode `White_Space` property). -/
def unicodeIsSpace (c : Char) : Bool :=
  let n := c.toNat
  (0x09 ≤ n && n ≤ 0x0D) || n == 0x20 || n == 0x85 || n == 0xA0 || n == 0x1680 ||
  (0x2000 ≤ n && n ≤ 0x200A) || n == 0x2028 || n == 0x2029 || n == 0x202F ||
  n == 0x205F || n == 0x3000

/-- Go's `strings.TrimSpace`. -/
def stringsTrimSpace (s : String) : String :=
  String.mk ((s.data.dropWhile unicodeIsSpace).rdropWhile unicodeIsSpace)

/-- Go's `strings.ToLower`. -/
def stringsToLower (L : GoLib) (s : String) : String :=
  String.mk (s.data.map L.unicodeToLower)

/-- The bytes of a Go string: `[]byte(s)`. -/
def goBytes (s : String) : List Nat :=
  s.data.flatMap (fun c => (String.utf8EncodeChar c).map UInt8.toNat)

/-- Remove every non-overlapping occurrence of `old`, scanning from the left;
`fuel` bounds the scan and is the length of the text. -/
def removeAllAux (old : List Char) : Nat → List Char → List Char
  | 0, s => s
  | _ + 1, [] => []
  | fuel + 1, c :: s =>
    if old.isPrefixOf (c :: s) then removeAllAux old fuel ((c :: s).drop old.length)
    else c :: removeAllAux old fuel s

/-- Go's `strings.Replace(s, old, "", -1)`: all occurrences of `old` are
removed; with an empty `old` the result is `s`. -/
def stringsRemoveAll (s old : String) : String :=
  if old.data.isEmpty then s else String.mk (removeAllAux old.data s.data.length s.data)

/-! ## Regular expressions -/

/-- The characters `lo`, ..., `hi` of a class range `lo-hi`. -/
def charRange (lo hi : Char) : List Char :=
  (List.range (hi.toNat - lo.toNat + 1)).map (fun i => Char.ofNat (lo.toNat + i))

/-- A character class `[...]` as a regular expression: one of `cs`. -/
def classRe (cs : List Char) : RegularExpression Char :=
  cs.foldr (fun c r => RegularExpression.char c + r) 0

/-- The regular expression `r+`. -/
def plusRe (r : RegularExpression Char) : RegularExpression Char :=
  r * r.star

/-- The members of the class `[a-zA-Z0-9-_]`: three ranges, then the two
literal characters `-` and `_`. -/
def nameClass : List Char :=
  charRange 'a' 'z' ++ charRange 'A' 'Z' ++ charRange '0' '9' ++ ['-', '_']

/-- The expression `^[a-zA-Z0-9-_]+$`; without the multi-line flag `^` and `$`
anchor at the two ends of the text, so a match is a match of the whole text by
`[a-zA-Z0-9-_]+`. -/
def nameRegexp : RegularExpression Char :=
  plusRe (classRe nameClass)

/-! ## NameKey: `validateName`, `polishStashName`, `hash`, `hashParts` -/

/-- The function `validateName` of `stash.go`. -/
def validateName (stashName : String) : Bool :=
  nameRegexp.rmatch stashName.data

/-- The function `polishStashName` of `stash.go`. -/
def polishStashName (L : GoLib) (stashName : String) : String :=
  let stashName := stringsToLower L stashName
  let stashName := stringsTrimSpace stashName
  stashName

/-- The offset basis of 64-bit FNV. -/
def fnvOffset64 : Nat := 14695981039346656037

/-- The prime of 64-bit FNV. -/
def fnvPrime64 : Nat := 1099511628211

/-- Go's `fnv.New64a().Write`: for every byte, xor then multiply, in 64 bits. -/
def fnv64aWrite (h : Nat) (data : List Nat) : Nat :=
  data.foldl (fun h b => ((h ^^^ b) * fnvPrime64) % 2 ^ 64) h

/-- Go's `Sum(nil)` of a 64-bit FNV state: its 8 bytes, big-endian. -/
def fnv64aSum (h : Nat) : List Nat :=
  [h >>> 56 % 256, h >>> 48 % 256, h >>> 40 % 256, h >>> 32 % 256,
   h >>> 24 % 256, h >>> 16 % 256, h >>> 8 % 256, h % 256]

/-- The function `hash` of `stash.go`. -/
def hash (name : String) : List Nat :=
  let hv := fnv64aSum (fnv64aWrite fnvOffset64 (goBytes name))
  let hv := (List.range 4).foldl (fun hv i => hv.set i (hv.getD i 0 ^^^ hv.getD (i + 4) 0)) hv
  hv.take 4

/-- The upper-case hexadecimal digit of a value below 16. -/
def upperHexDigit (d : Nat) : Char :=
  "0123456789ABCDEF".data.getD d '0'

/-- Go's `fmt.Sprintf("%02X", v)` for a byte `v`. -/
def sprintf02X (v : Nat) : String :=
  String.mk [upperHexDigit (v / 16), upperHexDigit (v % 16)]

/-- The loop of `hashParts`: `parts[i] = fmt.Sprintf("%02X", v)` for the bytes
from index `i` on; an index outside `parts` is a run-time panic. -/
def hashPartsLoop : Nat → List Nat → List String → Except Err (List String)
  | _, [], parts => .ok parts
  | i, v :: rest, parts =>
    if i < parts.length then hashPartsLoop (i + 1) rest (parts.set i (sprintf02X v))
    else .error .runtimePanic

/-- The function `hashParts` of `stash.go`. -/
def hashParts (hash : List Nat) : Except Err (List String) :=
  hashPartsLoop 0 hash (List.replicate 4 "")

/-! ## Paths

An absolute path is the list of its segments (`Path`); relative paths, which
`stash.go` uses as the keys of its tree, are strings, as in the source. -/

/-- An absolute, cleaned path: its segments below the root. -/
abbrev Path := List String

/-- The pieces of a string between its `/` separators. -/
def splitSegments (s : String) : List String :=
  (s.data.splitOn '/').map String.mk

/-- What `filepath.Clean` does with one more segment. -/
def cleanStep (p : Path) (seg : String) : Path :=
  if seg = "" ∨ seg = "." then p
  else if seg = ".." then p.dropLast
  else p ++ [seg]

/-- Go's `filepath.Join(base, elems...)` for an absolute `base`. -/
def filepathJoin (base : Path) (elems : List String) : Path :=
  (elems.flatMap splitSegments).foldl cleanStep base

/-- Go's `strings.Join(parts, "/")`. -/
def joinSlash (parts : List String) : String :=
  String.mk (List.intercalate ['/'] (parts.map String.data))

/-- The text of a cleaned relative path with the given segments. -/
def relString (segs : List String) : String :=
  if segs.isEmpty then "." else joinSlash segs

/-- The length of the longest common prefix of two paths. -/
def commonPrefixLen : Path → Path → Nat
  | a :: p, b :: q => if a = b then commonPrefixLen p q + 1 else 0
  | _, _ => 0

/-- Go's `filepath.Rel(base, targ)` for two absolute paths. -/
def filepathRel (base targ : Path) : String :=
  let n := commonPrefixLen base targ
  relString (List.replicate (base.length - n) ".." ++ targ.drop n)

/-- Go's `filepath.Dir` on a cleaned relative path. -/
def filepathDir (rel : String) : String :=
  relString (splitSegments rel).dropLast

/-- Go's `filepath.Base` on a cleaned relative path. -/
def filepathBase (rel : String) : String :=
  if rel = "" then "." else (splitSegments rel).getLast?.getD "."

/-- Go's `filepath.Base` on an absolute path. -/
def pathBase (p : Path) : String :=
  p.getLast?.getD "/"

/-- The scan of `filepath.Ext`, from the last character backwards. -/
def extScan : List Char → List Char → List Char
  | [], _ => []
  | c :: rest, acc =>
    if c = '/' then [] else if c = '.' then c :: acc else extScan rest (c :: acc)

/-- Go's `filepath.Ext`. -/
def filepathExt (path : String) : String :=
  String.mk (extScan path.data.reverse [])

/-- The part of `filepath.Match` that handles `*`: try every prefix of the
name free of `/`. -/
def matchStar (k : List Char → Bool) : List Char → Bool
  | [] => k []
  | c :: name => k (c :: name) || (c != '/' && matchStar k name)

/-- Go's `filepath.Match` for a pattern made of `*` and literal characters. -/
def matchChars : List Char → List Char → Bool
  | [], name => name.isEmpty
  | p :: pattern, name =>
    if p = '*' then matchStar (matchChars pattern) name
    else
      match name with
      | [] => false
      | c :: name => p == c && matchChars pattern name

/-- Go's `filepath.Match(pattern, name)` for the patterns `listDepth` builds. -/
def filepathMatch (pattern name : String) : Bool :=
  matchChars pattern.data name.data

/-! ## The filesystem -/

/-- A filesystem object: a regular file with its bytes, or a directory with
its entries, listed in the order `filepath.Walk` reads them (by name). -/
inductive Node where
  | file (content : List Nat)
  | dir (entries : List (String × Node))
  deriving Repr

/-- Whether the object is a directory. -/
def Node.isDir : Node → Bool
  | .dir _ => true
  | .file _ => false

/-- The object at a path below a node. -/
def Node.get? : Node → Path → Option Node
  | n, [] => some n
  | .file _, _ :: _ => none
  | .dir es, s :: p =>
    match es.lookup s with
    | some c => c.get? p
    | none => none

/-- Put an entry into a directory listing, which is kept ordered by name; an
entry of the same name is replaced. -/
def insertEntry (name : String) (n : Node) : List (String × Node) → List (String × Node)
  | [] => [(name, n)]
  | (k, v) :: rest =>
    if name.data < k.data then (name, n) :: (k, v) :: rest
    else if name = k then (name, n) :: rest
    else (k, v) :: insertEntry name n rest

/-- What `os.Stat` and `os.Lstat` report. -/
structure FileInfo where
  name : String
  isDir : Bool
  deriving DecidableEq, Repr

/-- The object `os.Stat` finds at a path, or the error of the failing lookup. -/
def Node.stat : Node → Path → Except Err Node
  | n, [] => .ok n
  | .file _, _ :: _ => .error .notDir
  | .dir es, s :: p =>
    match es.lookup s with
    | some c => c.stat p
    | none => .error .notExist

/-- The tree after `os.MkdirAll`: existing directories are kept, missing ones
are created, a regular file on the way is an error. -/
def Node.mkdirAll : Node → Path → Except Err Node
  | .file _, _ => .error .notDir
  | .dir es, [] => .ok (.dir es)
  | .dir es, s :: p =>
    match ((es.lookup s).getD (.dir [])).mkdirAll p with
    | .ok c => .ok (.dir (insertEntry s c es))
    | .error e => .error e

/-- The tree after `ioutil.WriteFile`: the file is created or truncated; its
directory has to exist and the path must not be a directory. -/
def Node.writeFile : Node → Path → List Nat → Except Err Node
  | _, [], _ => .error .isDir
  | .file _, _ :: _, _ => .error .notDir
  | .dir es, [s], content =>
    match es.lookup s with
    | some (.dir _) => .error .isDir
    | _ => .ok (.dir (insertEntry s (.file content) es))
  | .dir es, s :: t :: p, content =>
    match es.lookup s with
    | none => .error .notExist
    | some c =>
      match c.writeFile (t :: p) content with
      | .ok c => .ok (.dir (insertEntry s c es))
      | .error e => .error e

/-- The tree after `os.RemoveAll` of a path that is not the root: the object
and all it contains are gone; a missing path leaves the tree as it is. -/
def Node.removeAll : Node → Path → Node
  | n, [] => n
  | .file c, _ :: _ => .file c
  | .dir es, [s] => .dir (es.filter (fun e => e.1 != s))
  | .dir es, s :: t :: p =>
    match es.lookup s with
    | none => .dir es
    | some c => .dir (insertEntry s (c.removeAll (t :: p)) es)

/-- A call into `os`, `io/ioutil` or `path/filepath` that touches the
filesystem. -/
inductive Call where
  | stat (p : Path)
  | walk (p : Path)
  | mkdirAll (p : Path)
  | readFile (p : Path)
  | writeFile (p : Path) (content : List Nat)
  | removeAll (p : Path)
  deriving DecidableEq, Repr

/-- The state of the world: the filesystem and the calls made so far. -/
structure World where
  root : Node
  trace : List Call

/-- Record a call. -/
def World.log (w : World) (c : Call) : World :=
  { w with trace := w.trace ++ [c] }

/-- Go's `os.Stat`. -/
def osStat (p : Path) (w : World) : Except Err FileInfo × World :=
  match w.root.stat p with
  | .ok n => (.ok ⟨pathBase p, n.isDir⟩, w.log (.stat p))
  | .error e => (.error e, w.log (.stat p))

/-- Go's `os.MkdirAll(p, 0777)`. -/
def osMkdirAll (p : Path) (w : World) : Except Err Unit × World :=
  match w.root.mkdirAll p with
  | .ok r => (.ok (), { root := r, trace := w.trace ++ [.mkdirAll p] })
  | .error e => (.error e, w.log (.mkdirAll p))

/-- Go's `ioutil.ReadFile`. -/
def ioutilReadFile (p : Path) (w : World) : Except Err (List Nat) × World :=
  match w.root.stat p with
  | .ok (.file content) => (.ok content, w.log (.readFile p))
  | .ok (.dir _) => (.error .isDir, w.log (.readFile p))
  | .error e => (.error e, w.log (.readFile p))

/-- Go's `ioutil.WriteFile(p, content, 0777)`. -/
def ioutilWriteFile (p : Path) (content : List Nat) (w : World) : Except Err Unit × World :=
  match w.root.writeFile p content with
  | .ok r => (.ok (), { root := r, trace := w.trace ++ [.writeFile p content] })
  | .error e => (.error e, w.log (.writeFile p content))

/-- Go's `os.RemoveAll`; the root directory itself cannot be removed, only
emptied. -/
def osRemoveAll (p : Path) (w : World) : Except Err Unit × World :=
  if p.isEmpty then
    (.error (.lib "unlinkat /: device or resource busy"),
      { root := .dir [], trace := w.trace ++ [.removeAll p] })
  else (.ok (), { root := w.root.removeAll p, trace := w.trace ++ [.removeAll p] })

/-! ## `filepath.Walk` -/

/-- What a `filepath.WalkFunc` returns: `nil`, `filepath.SkipDir`, or another
error. -/
inductive WalkCtl where
  | next
  | skipDir
  | fail (e : Err)
  deriving DecidableEq, Repr

mutual
/-- The function `walk` of `path/filepath`: call `walkFn` on the object, then,
for a directory, walk its entries in order. -/
def walkNode {σ : Type} (walkFn : Path → Option FileInfo → σ → WalkCtl × σ)
    (path : Path) (name : String) : Node → σ → WalkCtl × σ
  | .file _, s => walkFn path (some ⟨name, false⟩) s
  | .dir es, s =>
    match walkFn path (some ⟨name, true⟩) s with
    | (.next, s) => walkEntries walkFn path es s
    | (ctl, s) => (ctl, s)
/-- The loop of `walk` over the names of a directory: `SkipDir` from a
directory is swallowed, `SkipDir` from a file ends the loop. -/
def walkEntries {σ : Type} (walkFn : Path → Option FileInfo → σ → WalkCtl × σ)
    (path : Path) : List (String × Node) → σ → WalkCtl × σ
  | [], s => (.next, s)
  | (name, n) :: rest, s =>
    match walkNode walkFn (path ++ [name]) name n s with
    | (.next, s) => walkEntries walkFn path rest s
    | (.skipDir, s) => if n.isDir then walkEntries walkFn path rest s else (.skipDir, s)
    | (.fail e, s) => (.fail e, s)
end

/-- Go's `filepath.Walk(root, walkFn)`; `s` is the state the closure `walkFn`
updates.  When `os.Lstat(root)` fails `walkFn` is called with a nil `info`. -/
def filepathWalk {σ : Type} (root : Path) (walkFn : Path → Option FileInfo → σ → WalkCtl × σ)
    (s : σ) (w : World) : (Option Err × σ) × World :=
  let r :=
    match w.root.get? root with
    | some n => walkNode walkFn root (pathBase root) n s
    | none => walkFn root none s
  match r with
  | (.fail e, s) => ((some e, s), w.log (.walk root))
  | (_, s) => ((none, s), w.log (.walk root))

/-! ## TreeWalker: `readTree` -/

/-- The Go type `map[string][]string`, as the list of its keys with their
values.  Go leaves the order in which `range` visits a map unspecified; the
embedding keeps the keys in the order they were first assigned and visits
them in that order. -/
abbrev Tree := List (String × List String)

/-- The value of `tree[d]`: the empty slice when the key is missing. -/
def treeGet (tree : Tree) (d : String) : List String :=
  (tree.lookup d).getD []

/-- The statement `tree[d] = append(tree[d], r)`. -/
def treeAppend : Tree → String → String → Tree
  | [], d, r => [(d, [r])]
  | (k, v) :: rest, d, r =>
    if k = d then (k, v ++ [r]) :: rest else (k, v) :: treeAppend rest d r

/-- The last four lines of the closure in `readTree`:
`if d == r { return nil }; tree[d] = append(tree[d], r); return nil`. -/
def readTreeRecord (tree : Tree) (d r : String) : WalkCtl × Tree :=
  if d = r then (.next, tree) else (.next, treeAppend tree d r)

/-- The closure `readTree` passes to `filepath.Walk`; `skipper` holds the
names that have a flag in the map of that name, `tree` is the map the closure
updates.  Calling `info.IsDir()` on a nil `info` panics. -/
def readTreeFn (dir : Path) (skipper : List String) (path : Path) (info : Option FileInfo)
    (tree : Tree) : WalkCtl × Tree :=
  let r := filepathRel dir path
  let d := r
  match info with
  | none => (.fail .runtimePanic, tree)
  | some info =>
    if !info.isDir then
      let d := filepathDir r
      let r := info.name
      readTreeRecord tree d r
    else if skipper.contains info.name then (.skipDir, tree)
    else readTreeRecord tree d r

/-- The function `readTree` of `stash.go`. -/
def readTree (dir : Path) (dirToSkip : List String) (w : World) : Except Err Tree × World :=
  match osStat dir w with
  | (.error e, w) => (.error e, w)
  | (.ok _, w) =>
    let skipper := dirToSkip
    match filepathWalk dir (readTreeFn dir skipper) [] w with
    | ((some e, _), w) => (.error e, w)
    | ((none, tree), w) => (.ok tree, w)

/-! ## TreeCopier: `copyTree` -/

/-- The body of the inner loop of `copyTree`, for the file `f` of the key
`path`. -/
def copyFile (dstHome srcHome : Path) (path f : String) (w : World) : Except Err Unit × World :=
  let srcDir := filepathJoin srcHome [path]
  let dstDir := filepathJoin dstHome [path]
  match osMkdirAll dstDir w with
  | (.error e, w) => (.error e, w)
  | (.ok _, w) =>
    let src := filepathJoin srcDir [f]
    let dst := filepathJoin dstDir [f]
    match ioutilReadFile src w with
    | (.error e, w) => (.error e, w)
    | (.ok content, w) => ioutilWriteFile dst content w

/-- The inner loop of `copyTree`: `for _, f := range files`. -/
def copyFiles (dstHome srcHome : Path) (path : String) :
    List String → World → Except Err Unit × World
  | [], w => (.ok (), w)
  | f :: files, w =>
    match copyFile dstHome srcHome path f w with
    | (.error e, w) => (.error e, w)
    | (.ok _, w) => copyFiles dstHome srcHome path files w

/-- The function `copyTree` of `stash.go`. -/
def copyTree : Tree → Path → Path → World → Except Err Unit × World
  | [], _, _, w => (.ok (), w)
  | (path, files) :: tree, dstHome, srcHome, w =>
    match copyFiles dstHome srcHome path files w with
    | (.error e, w) => (.error e, w)
    | (.ok _, w) => copyTree tree dstHome srcHome w

/-! ## The operations: `createStash`, `expandStash`, `listDepth`, `deleteStash` -/

/-- The function `createStash` of `stash.go`. -/
def createStash (L : GoLib) (stashName : String) (stashTree fstashHome : Path) (w : World) :
    Except Err Unit × World :=
  let stashName := polishStashName L stashName
  if !validateName stashName then (.error .invalidStashName, w)
  else
    match readTree stashTree [".git"] w with
    | (.error e, w) => (.error e, w)
    | (.ok tree, w) =>
      match hashParts (hash stashName) with
      | .error e => (.error e, w)
      | .ok parts =>
        let dst := filepathJoin fstashHome (parts ++ [stashName])
        copyTree tree dst stashTree w

/-- The key `expandTree` computes for the file at `src`:
`base := filepath.Base(src); key := strings.Replace(base, filepath.Ext(base), "", -1)`. -/
def templateKey (src : Path) : String :=
  let base := pathBase src
  stringsRemoveAll base (filepathExt base)

/-- The body of the inner loop of `expandTree`. -/
def expandFile (L : GoLib) (dstHome srcHome : Path) (templatesData : List (String × String))
    (path f : String) (w : World) : Except Err Unit × World :=
  let srcDir := filepathJoin srcHome [path]
  let dstDir := filepathJoin dstHome [path]
  match osMkdirAll dstDir w with
  | (.error e, w) => (.error e, w)
  | (.ok _, w) =>
    let src := filepathJoin srcDir [f]
    let dst := filepathJoin dstDir [f]
    match ioutilReadFile src w with
    | (.error e, w) => (.error e, w)
    | (.ok content, w) =>
      let key := templateKey src
      let raw := stringsTrimSpace ((templatesData.lookup key).getD "")
      if raw ≠ "" then
        match L.templateExpand key content raw with
        | .error e => (.error e, w)
        | .ok content => ioutilWriteFile dst content w
      else ioutilWriteFile dst content w

/-- The inner loop of `expandTree`. -/
def expandFiles (L : GoLib) (dstHome srcHome : Path) (templatesData : List (String × String))
    (path : String) : List String → World → Except Err Unit × World
  | [], w => (.ok (), w)
  | f :: files, w =>
    match expandFile L dstHome srcHome templatesData path f w with
    | (.error e, w) => (.error e, w)
    | (.ok _, w) => expandFiles L dstHome srcHome templatesData path files w

/-- The function `expandTree` of `stash.go`. -/
def expandTree (L : GoLib) : Tree → Path → Path → List (String × String) → World →
    Except Err Unit × World
  | [], _, _, _, w => (.ok (), w)
  | (path, files) :: tree, dstHome, srcHome, templatesData, w =>
    match expandFiles L dstHome srcHome templatesData path files w with
    | (.error e, w) => (.error e, w)
    | (.ok _, w) => expandTree L tree dstHome srcHome templatesData w

/-- The function `expandStash` of `stash.go`. -/
def expandStash (L : GoLib) (stashName : String) (fstashHome workingDirectory : Path)
    (templatesData : List (String × String)) (w : World) : Except Err Unit × World :=
  let stashName := polishStashName L stashName
  match hashParts (hash stashName) with
  | .error e => (.error e, w)
  | .ok parts =>
    let dir := filepathJoin fstashHome (parts ++ [stashName])
    match osStat dir w with
    | (.error e, w) =>
      if osIsNotExist e then (.error .stashNotExist, w) else (.error e, w)
    | (.ok _, w) =>
      let stashDir := filepathJoin fstashHome (parts ++ [stashName])
      match readTree stashDir [] w with
      | (.error e, w) => (.error e, w)
      | (.ok tree, w) =>
        if templatesData.length = 0 then copyTree tree workingDirectory stashDir w
        else expandTree L tree workingDirectory stashDir templatesData w

/-- The closure `listDepth` passes to `filepath.Walk`; `result` is the slice
it appends to. -/
def listDepthFn (dir : Path) (depth : Int) (p : Path) (inf : Option FileInfo)
    (result : List String) : WalkCtl × List String :=
  match inf with
  | none => (.fail .runtimePanic, result)
  | some inf =>
    if !inf.isDir then (.next, result)
    else
      let rel := filepathRel dir p
      let parts := List.replicate depth.toNat "*"
      let matched := filepathMatch (joinSlash parts) rel
      if !matched then (.next, result)
      else (.next, result ++ [filepathBase rel])

/-- The function `listDepth` of `stash.go`. -/
def listDepth (dir : Path) (depth : Int) (w : World) : Except Err (List String) × World :=
  if depth = 0 then (.ok [], w)
  else
    match filepathWalk dir (listDepthFn dir depth) [] w with
    | ((some e, _), w) => (.error e, w)
    | ((none, result), w) => (.ok result, w)

/-- The function `deleteStash` of `stash.go`. -/
def deleteStash (L : GoLib) (stashName : String) (fstashHome : Path) (w : World) :
    Except Err Unit × World :=
  let stashName := polishStashName L stashName
  match hashParts (hash stashName) with
  | .error e => (.error e, w)
  | .ok parts =>
    let dir := filepathJoin fstashHome (parts ++ [stashName])
    match osStat dir w with
    | (.error e, w) => if osIsNotExist e then (.ok (), w) else (.error e, w)
    | (.ok _, w) => osRemoveAll dir w

/-! ## Notions the theorems are stated with -/

/-- The characters of a valid stash name: ASCII letters, ASCII digits, the
hyphen and the underscore. -/
def IsNameChar (c : Char) : Prop :=
  ('a' ≤ c ∧ c ≤ 'z') ∨ ('A' ≤ c ∧ c ≤ 'Z') ∨ ('0' ≤ c ∧ c ≤ '9') ∨ c = '-' ∨ c = '_'

instance (c : Char) : Decidable (IsNameChar c) := by
  unfold IsNameChar
  infer_instance

/-- The value of an upper-case hexadecimal digit. -/
def hexDigitValue (c : Char) : Option Nat :=
  let i := "0123456789ABCDEF".data.indexOf c
  if i < 16 then some i else none

/-- The number a sequence of bytes denotes, most significant byte first. -/
def bigEndianValue (bs : List Nat) : Nat :=
  bs.foldl (fun acc b => acc * 256 + b) 0

/-- The 64-bit FNV-1a state of the bytes of a name. -/
def nameState (name : String) : Nat :=
  fnv64aWrite fnvOffset64 (goBytes name)

/-- The 8-byte digest of a name: what `h.Sum(nil)` returns in `hash`. -/
def nameDigest (name : String) : List Nat :=
  fnv64aSum (nameState name)

/-- A library instance for concrete runs: ASCII lower-casing, and a template
engine that returns the content as it is. -/
def asciiLib : GoLib :=
  ⟨Char.toLower, fun _ content _ => .ok content⟩

/-- The bytes of the regular file at a path, if there is one. -/
def Node.fileAt (n : Node) (p : Path) : Option (List Nat) :=
  match n.get? p with
  | some (.file content) => some content
  | _ => none

/-- Whether there is a directory at a path. -/
def Node.dirAt (n : Node) (p : Path) : Bool :=
  match n.get? p with
  | some (.dir _) => true
  | _ => false

/-- Whether there is anything at a path. -/
def Node.existsAt (n : Node) (p : Path) : Bool :=
  (n.get? p).isSome

/-- The keys of a tree. -/
def treeKeys (tree : Tree) : List String :=
  tree.map Prod.fst

/-- A project directory `/home/u/proj` with a `.git` directory, a directory
`a` holding the files `a` and `b`, an empty directory `docs` and a file
`main.go`, next to an empty stash home `/home/u/.fstash`. -/
def projectWorld : World :=
  ⟨.dir [("home", .dir [("u", .dir [
      (".fstash", .dir []),
      ("proj", .dir [
        (".git", .dir [("HEAD", .file [114, 101, 102])]),
        ("a", .dir [("a", .file [1]), ("b", .file [2])]),
        ("docs", .dir []),
        ("main.go", .file [112, 97, 99, 107])])])])], []⟩

/-- A stash home `/home/u/.fstash` holding the stashes `alpha` and `beta`. -/
def storeWorld : World :=
  ⟨.dir [("home", .dir [("u", .dir [
      (".fstash", .dir [
        ("0F", .dir [("2B", .dir [("05", .dir [("90", .dir [
          ("alpha", .dir [("a.txt", .file [97])])])])])]),
        ("E3", .dir [("61", .dir [("41", .dir [("3C", .dir [
          ("beta", .dir [("b.txt", .file [98])])])])])])]),
      ("notes.txt", .file [110])])])], []⟩

/-- A stash directory holding one template file, `my.test.t`. -/
def templateWorld : World :=
  ⟨.dir [("stash", .dir [("my.test.t", .file [104, 105])]), ("work", .dir [])], []⟩

/-- A library instance whose template engine answers with the name of the
template it was asked to execute. -/
def echoKeyLib : GoLib :=
  ⟨Char.toLower, fun key _ _ => .ok (goBytes key)⟩

/-- A name a directory entry can have: not empty, not `.` or `..`, and free
of `/`. -/
def validName (s : String) : Bool :=
  !s.data.isEmpty && s != "." && s != ".." && !s.data.contains '/'

mutual
/-- A well-formed filesystem tree: every directory lists its entries in
strictly increasing order of their names, and every name is valid. -/
def Node.wf : Node → Bool
  | .file _ => true
  | .dir es => decide ((es.map (fun e => e.1.data)).Pairwise (· < ·)) && entriesWf es
/-- Well-formedness of the entries of a directory. -/
def entriesWf : List (String × Node) → Bool
  | [] => true
  | (k, n) :: rest => validName k && n.wf && entriesWf rest
end

/-- The regular files a walk meets below a directory listing when it prunes
the directories named in `skip`: each with the segments of the directory
holding it, relative to the root of the walk, and its name; `rel` is the
relative path of the listed directory. -/
def filesOfEntries (skip : List String) (rel : Path) :
    List (String × Node) → List (Path × String)
  | [] => []
  | (k, .file _) :: rest => (rel, k) :: filesOfEntries skip rel rest
  | (k, .dir es) :: rest =>
    (if skip.contains k then [] else filesOfEntries skip (rel ++ [k]) es) ++
      filesOfEntries skip rel rest

/-- The pairs of a key and a file name a tree holds, in the order `copyTree`
visits them. -/
def treePairs (tree : Tree) : List (String × String) :=
  tree.flatMap (fun e => e.2.map (fun f => (e.1, f)))

/-- The tree after the closure of `readTree` has met the given files, one
after the other. -/
def recordAll (tree : Tree) (ps : List (Path × String)) : Tree :=
  ps.foldl (fun t p => (readTreeRecord t (relString p.1) p.2).2) tree

/-- What there is at a path, without what it contains: a file with its bytes
or a directory. -/
inductive Kind where
  | file (content : List Nat)
  | dir
  deriving DecidableEq, Repr

/-- The kind of a filesystem object. -/
def Node.kind : Node → Kind
  | .file content => .file content
  | .dir _ => .dir

/-- The kind of the object at a path, if there is one. -/
def Node.kindAt (n : Node) (p : Path) : Option Kind :=
  (n.get? p).map Node.kind

/-- The two loops of `copyTree` as one loop over the pairs of a key and a
file name. -/
def copyList (dstHome srcHome : Path) : List (String × String) → World → Except Err Unit × World
  | [], w => (.ok (), w)
  | (path, f) :: ps, w =>
    match copyFile dstHome srcHome path f w with
    | (.error e, w) => (.error e, w)
    | (.ok _, w) => copyList dstHome srcHome ps w

/-- The storage path of a stash: the path `createStash`, `expandStash` and
`deleteStash` each build from the home and the name. -/
def storagePath (L : GoLib) (stashName : String) (fstashHome : Path) : Path :=
  let stashName := polishStashName L stashName
  filepathJoin fstashHome ((hash stashName).map sprintf02X ++ [stashName])

/-- A file the walk of `readTree` records: the file `f` of the directory with
the segments `d` below `root`, no segment of `d` being a skipped name, and
the text of `d` differing from `f`. -/
def Recorded (n : Node) (root : Path) (skip : List String) (d : Path) (f : String) : Prop :=
  (∀ s ∈ d, s ∉ skip) ∧ (∃ c, n.kindAt (root ++ d ++ [f]) = some (.file c)) ∧ relString d ≠ f

/-- A path that holds nothing: there is nothing at it, or an empty
directory. -/
def Node.holdsNothing (n : Node) (p : Path) : Bool :=
  match n.get? p with
  | none => true
  | some (.dir []) => true
  | _ => false

/-- A project directory `/home/u/proj` with a `.git` directory, a file
`README`, an empty directory `docs` and a directory `src` holding `main.go`,
next to an empty stash home `/home/u/.fstash`. -/
def cleanWorld : World :=
  ⟨.dir [("home", .dir [("u", .dir [
      (".fstash", .dir []),
      ("proj", .dir [
        (".git", .dir [("HEAD", .file [114, 101, 102])]),
        ("README", .file [104, 105]),
        ("docs", .dir []),
        ("src", .dir [("main.go", .file [112, 97, 99, 107])])])])])], []⟩

/-! ## NameKey: the name pattern -/

open RegularExpression in
theorem classRe_matches (cs : List Char) (x : List Char) :
    x ∈ (classRe cs).matches' ↔ ∃ c ∈ cs, x = [c] := by
  induction cs with
  | nil => simp [classRe, RegularExpression.matches']
  | cons a rest ih =>
    have : classRe (a :: rest) = RegularExpression.char a + classRe rest := rfl
    rw [this, matches'_add, Language.mem_add, ih]
    simp only [List.mem_cons, exists_eq_or_imp]
    exact Iff.rfl

open RegularExpression in
theorem plusRe_class_matches (cs : List Char) (x : List Char) :
    x ∈ (plusRe (classRe cs)).matches' ↔ x ≠ [] ∧ ∀ c ∈ x, c ∈ cs := by
  unfold plusRe
  rw [matches'_mul, matches'_star, Language.mem_mul]
  constructor
  · rintro ⟨a, ha, b, hb, rfl⟩
    rw [classRe_matches] at ha
    obtain ⟨c, hc, rfl⟩ := ha
    rw [Language.mem_kstar] at hb
    obtain ⟨L, rfl, hL⟩ := hb
    refine ⟨by simp, ?_⟩
    intro d hd
    simp only [List.singleton_append, List.mem_cons, List.mem_flatten] at hd
    rcases hd with rfl | ⟨y, hy, hdy⟩
    · exact hc
    · have := hL y hy
      rw [classRe_matches] at this
      obtain ⟨e, he, rfl⟩ := this
      simp at hdy
      subst hdy
      exact he
  · rintro ⟨hne, hall⟩
    cases x with
    | nil => exact absurd rfl hne
    | cons c t =>
      refine ⟨[c], ?_, t, ?_, rfl⟩
      · rw [classRe_matches]; exact ⟨c, hall c (by simp), rfl⟩
      · rw [Language.mem_kstar]
        refine ⟨t.map (fun c => [c]), ?_, ?_⟩
        · clear hall hne
          induction t with
          | nil => rfl
          | cons d t ih => simp [← ih]
        · intro y hy
          simp only [List.mem_map] at hy
          obtain ⟨d, hd, rfl⟩ := hy
          rw [classRe_matches]
          exact ⟨d, hall d (by simp [hd]), rfl⟩

set_option maxRecDepth 100000 in
theorem nameClass_sound : ∀ c ∈ nameClass, IsNameChar c := by decide

set_option maxRecDepth 100000 in
theorem nameClass_complete_aux :
    ∀ n, n < 123 → IsNameChar (Char.ofNat n) → Char.ofNat n ∈ nameClass := by decide

set_option maxRecDepth 100000 in
theorem nameClass_excludes : ∀ c ∈ nameClass,
    unicodeIsSpace c = false ∧ c ≠ '\n' ∧ c ≠ '.' ∧ c ≠ '/' ∧ c ≠ '\\' := by decide

theorem IsNameChar.toNat_lt {c : Char} (h : IsNameChar c) : c.toNat < 123 := by
  have key : ∀ d : Char, c ≤ d → d.toNat < 123 → c.toNat < 123 := by
    intro d hcd hd
    have : c.toNat ≤ d.toNat := hcd
    omega
  rcases h with ⟨_, h⟩ | ⟨_, h⟩ | ⟨_, h⟩ | rfl | rfl
  · exact key _ h (by decide)
  · exact key _ h (by decide)
  · exact key _ h (by decide)
  · decide
  · decide

theorem mem_nameClass_iff (c : Char) : c ∈ nameClass ↔ IsNameChar c := by
  constructor
  · exact nameClass_sound c
  · intro h
    have := nameClass_complete_aux c.toNat h.toNat_lt
    rw [Char.ofNat_toNat] at this
    exact this h

theorem validateName_iff (s : String) :
    validateName s = true ↔ s.data ≠ [] ∧ ∀ c ∈ s.data, IsNameChar c := by
  unfold validateName nameRegexp
  rw [RegularExpression.rmatch_iff_matches', plusRe_class_matches]
  simp only [mem_nameClass_iff]

/-- C8: `validateName s` holds exactly when `s` is not empty and each of its
characters is an ASCII letter, an ASCII digit, a hyphen or an underscore; so
the empty string is rejected, and so is every string with a white-space
character, a newline (wherever it stands), a dot, or a path separator. -/
theorem validateName_spec (s : String) :
    (validateName s = true ↔ s.data ≠ [] ∧ ∀ c ∈ s.data, IsNameChar c) ∧
    validateName "" = false ∧
    ((∃ c ∈ s.data, unicodeIsSpace c = true ∨ c = '\n' ∨ c = '.' ∨ c = '/' ∨ c = '\\') →
      validateName s = false) := by
  refine ⟨validateName_iff s, by decide, ?_⟩
  rintro ⟨c, hc, hbad⟩
  cases hv : validateName s with
  | false => rfl
  | true =>
    exfalso
    have hcl := (mem_nameClass_iff c).2 (((validateName_iff s).1 hv).2 c hc)
    obtain ⟨h1, h2, h3, h4, h5⟩ := nameClass_excludes c hcl
    rcases hbad with h | h | h | h | h
    · rw [h1] at h; exact Bool.noConfusion h
    · exact h2 h
    · exact h3 h
    · exact h4 h
    · exact h5 h

/-! ## NameKey: the shard key -/

theorem xor_mod_two_pow_eq (a b n : Nat) :
    (a ^^^ b) % 2 ^ n = (a % 2 ^ n) ^^^ (b % 2 ^ n) := by
  apply Nat.eq_of_testBit_eq
  intro i
  simp only [Nat.testBit_mod_two_pow, Nat.testBit_xor]
  by_cases h : i < n <;> simp [h]

theorem xor_shiftRight_eq (a b k : Nat) : (a ^^^ b) >>> k = (a >>> k) ^^^ (b >>> k) := by
  apply Nat.eq_of_testBit_eq
  intro i
  simp only [Nat.testBit_shiftRight, Nat.testBit_xor]

theorem xor_byte (a b k : Nat) :
    (a ^^^ b) >>> k % 256 = (a >>> k % 256) ^^^ (b >>> k % 256) := by
  rw [xor_shiftRight_eq]
  exact xor_mod_two_pow_eq _ _ 8

theorem xor_byte_lt (a b : Nat) : (a % 256) ^^^ (b % 256) < 256 :=
  Nat.xor_lt_two_pow (n := 8) (Nat.mod_lt _ (by norm_num)) (Nat.mod_lt _ (by norm_num))

theorem hash_eq (name : String) :
    hash name =
      (let d := fnv64aSum (fnv64aWrite fnvOffset64 (goBytes name))
       [d.getD 0 0 ^^^ d.getD 4 0, d.getD 1 0 ^^^ d.getD 5 0,
        d.getD 2 0 ^^^ d.getD 6 0, d.getD 3 0 ^^^ d.getD 7 0]) := by
  simp [hash, fnv64aSum, List.range, List.range.loop]

theorem fnv64aWrite_lt (h : Nat) (data : List Nat) (hh : h < 2 ^ 64) :
    fnv64aWrite h data < 2 ^ 64 := by
  induction data generalizing h with
  | nil => simpa [fnv64aWrite] using hh
  | cons b rest ih =>
    simp only [fnv64aWrite, List.foldl_cons]
    exact ih _ (Nat.mod_lt _ (by norm_num))

theorem fold_value (h : Nat) (hh : h < 2 ^ 64) :
    ((h >>> 56 % 256) ^^^ (h >>> 24 % 256)) * 2 ^ 24 +
    ((h >>> 48 % 256) ^^^ (h >>> 16 % 256)) * 2 ^ 16 +
    ((h >>> 40 % 256) ^^^ (h >>> 8 % 256)) * 2 ^ 8 +
    ((h >>> 32 % 256) ^^^ (h % 256)) = (h >>> 32) ^^^ (h % 2 ^ 32) := by
  have hx : (h >>> 32) ^^^ (h % 2 ^ 32) < 2 ^ 32 := by
    apply Nat.xor_lt_two_pow
    · rw [Nat.shiftRight_eq_div_pow]; omega
    · exact Nat.mod_lt _ (by norm_num)
  have e0 := xor_byte (h >>> 32) (h % 2 ^ 32) 24
  have e1 := xor_byte (h >>> 32) (h % 2 ^ 32) 16
  have e2 := xor_byte (h >>> 32) (h % 2 ^ 32) 8
  have e3 := xor_byte (h >>> 32) (h % 2 ^ 32) 0
  have a0 : (h >>> 32) >>> 24 % 256 = h >>> 56 % 256 := by
    simp only [Nat.shiftRight_eq_div_pow]; omega
  have a1 : (h >>> 32) >>> 16 % 256 = h >>> 48 % 256 := by
    simp only [Nat.shiftRight_eq_div_pow]; omega
  have a2 : (h >>> 32) >>> 8 % 256 = h >>> 40 % 256 := by
    simp only [Nat.shiftRight_eq_div_pow]; omega
  have a3 : (h >>> 32) >>> 0 % 256 = h >>> 32 % 256 := by simp
  have b0 : (h % 2 ^ 32) >>> 24 % 256 = h >>> 24 % 256 := by
    simp only [Nat.shiftRight_eq_div_pow]; omega
  have b1 : (h % 2 ^ 32) >>> 16 % 256 = h >>> 16 % 256 := by
    simp only [Nat.shiftRight_eq_div_pow]; omega
  have b2 : (h % 2 ^ 32) >>> 8 % 256 = h >>> 8 % 256 := by
    simp only [Nat.shiftRight_eq_div_pow]; omega
  have b3 : (h % 2 ^ 32) >>> 0 % 256 = h % 256 := by
    simp only [Nat.shiftRight_eq_div_pow]; omega
  rw [a0, b0] at e0
  rw [a1, b1] at e1
  rw [a2, b2] at e2
  rw [a3, b3] at e3
  rw [← e0, ← e1, ← e2, ← e3]
  generalize (h >>> 32) ^^^ (h % 2 ^ 32) = x at hx ⊢
  simp only [Nat.shiftRight_eq_div_pow]
  omega

theorem bigEndianValue_sum (h : Nat) (hh : h < 2 ^ 64) : bigEndianValue (fnv64aSum h) = h := by
  simp only [bigEndianValue, fnv64aSum, List.foldl_cons, List.foldl_nil,
    Nat.shiftRight_eq_div_pow]
  omega

set_option maxRecDepth 100000 in
theorem sprintf02X_digits : ∀ v, v < 256 →
    (sprintf02X v).data.map hexDigitValue = [some (v / 16), some (v % 16)] := by
  decide

theorem hash_lt (name : String) : ∀ b ∈ hash name, b < 256 := by
  intro b hb
  rw [hash_eq] at hb
  simp only [fnv64aSum, List.getD_cons_zero, List.getD_cons_succ, List.mem_cons,
    List.mem_singleton, List.not_mem_nil, or_false] at hb
  rcases hb with rfl | rfl | rfl | rfl <;> exact xor_byte_lt _ _

theorem hashParts_hash (name : String) :
    hashParts (hash name) = .ok ((hash name).map sprintf02X) := by
  rw [hash_eq]
  simp [hashParts, hashPartsLoop, fnv64aSum]

/-- C10: `hash name` is 4 bytes, byte `i` being `digest[i] XOR digest[i+4]`
for the 8-byte big-endian digest of the 64-bit FNV-1a state `h` of the name's
bytes, so that the 4 bytes denote `(h >> 32) xor (h mod 2^32)`; and
`hashParts` of it returns, without an index out of range, 4 segments, segment
`i` being the two upper-case hexadecimal digits of byte `i`. -/
theorem hash_hashParts_spec (name : String) :
    (nameDigest name).length = 8 ∧ bigEndianValue (nameDigest name) = nameState name ∧
    (hash name).length = 4 ∧
    (∀ i, i < 4 →
      (hash name).getD i 0 = (nameDigest name).getD i 0 ^^^ (nameDigest name).getD (i + 4) 0) ∧
    (∀ b ∈ hash name, b < 256) ∧
    bigEndianValue (hash name) = (nameState name >>> 32) ^^^ (nameState name % 2 ^ 32) ∧
    hashParts (hash name) = .ok ((hash name).map sprintf02X) ∧
    ((hash name).map sprintf02X).length = 4 ∧
    (∀ b ∈ hash name,
      (sprintf02X b).data.map hexDigitValue = [some (b / 16), some (b % 16)]) := by
  have hh : nameState name < 2 ^ 64 := fnv64aWrite_lt _ _ (by norm_num [fnvOffset64])
  have hb : ∀ b ∈ hash name, b < 256 := hash_lt name
  have he : hash name =
      [(nameDigest name).getD 0 0 ^^^ (nameDigest name).getD 4 0,
       (nameDigest name).getD 1 0 ^^^ (nameDigest name).getD 5 0,
       (nameDigest name).getD 2 0 ^^^ (nameDigest name).getD 6 0,
       (nameDigest name).getD 3 0 ^^^ (nameDigest name).getD 7 0] := hash_eq name
  refine ⟨rfl, bigEndianValue_sum _ hh, by rw [he]; rfl, ?_, hb, ?_, hashParts_hash name,
    by rw [he]; rfl, fun b hbm => sprintf02X_digits b (hb b hbm)⟩
  · intro i hi
    rw [he]
    interval_cases i <;> rfl
  · rw [he]
    have := fold_value (nameState name) hh
    simp only [bigEndianValue, nameDigest, fnv64aSum, List.getD_cons_zero, List.getD_cons_succ,
      List.foldl_cons, List.foldl_nil]
    rw [← this]
    ring

/-! ## Paths: joining, splitting and relative paths -/

theorem validName_iff (s : String) :
    validName s = true ↔ s.data ≠ [] ∧ s ≠ "." ∧ s ≠ ".." ∧ '/' ∉ s.data := by
  simp [validName, List.isEmpty_iff, and_assoc]

theorem validName_ne_empty {s : String} (h : validName s = true) : s ≠ "" := by
  rintro rfl
  exact absurd h (by decide)

theorem splitSegments_joinSlash (segs : List String) (hne : segs ≠ [])
    (h : ∀ s ∈ segs, '/' ∉ s.data) : splitSegments (joinSlash segs) = segs := by
  unfold splitSegments joinSlash
  have h1 : ∀ l ∈ segs.map String.data, '/' ∉ l := by
    intro l hl
    obtain ⟨s, hs, rfl⟩ := List.mem_map.1 hl
    exact h s hs
  have h2 : segs.map String.data ≠ [] := by simpa using hne
  show (List.splitOn '/' (List.intercalate ['/'] (segs.map String.data))).map String.mk = segs
  rw [List.splitOn_intercalate _ '/' h1 h2, List.map_map]
  conv_rhs => rw [← List.map_id segs]
  apply List.map_congr_left
  intro s _
  rfl

theorem joinSlash_singleton (f : String) : joinSlash [f] = f := by
  simp [joinSlash, List.intercalate]

theorem splitSegments_single (f : String) (h : '/' ∉ f.data) : splitSegments f = [f] := by
  have := splitSegments_joinSlash [f] (by simp) (by simpa using h)
  rwa [joinSlash_singleton] at this

theorem foldl_cleanStep_valid (base : Path) (segs : List String)
    (h : ∀ s ∈ segs, validName s = true) : segs.foldl cleanStep base = base ++ segs := by
  induction segs generalizing base with
  | nil => simp
  | cons s rest ih =>
    have hs := (validName_iff s).1 (h s (by simp))
    have hs0 : s ≠ "" := validName_ne_empty (h s (by simp))
    rw [List.foldl_cons, ih _ (fun t ht => h t (by simp [ht]))]
    simp [cleanStep, hs0, hs.2.1, hs.2.2.1]

theorem relString_nil : relString [] = "." := rfl

theorem relString_of_ne_nil {segs : List String} (h : segs ≠ []) :
    relString segs = joinSlash segs := by
  cases segs with
  | nil => exact absurd rfl h
  | cons a t => rfl

theorem splitSegments_relString (segs : List String) (hne : segs ≠ [])
    (h : ∀ s ∈ segs, validName s = true) : splitSegments (relString segs) = segs := by
  rw [relString_of_ne_nil hne]
  exact splitSegments_joinSlash segs hne (fun s hs => ((validName_iff s).1 (h s hs)).2.2.2)

theorem filepathJoin_relString (base : Path) (segs : List String)
    (h : ∀ s ∈ segs, validName s = true) : filepathJoin base [relString segs] = base ++ segs := by
  unfold filepathJoin
  by_cases hne : segs = []
  · subst hne
    have : splitSegments (relString []) = ["."] := by decide
    simp [this, cleanStep]
  · simp only [List.flatMap_cons, List.flatMap_nil, List.append_nil]
    rw [splitSegments_relString segs hne h]
    exact foldl_cleanStep_valid base segs h

theorem filepathJoin_name (base : Path) (f : String) (h : validName f = true) :
    filepathJoin base [f] = base ++ [f] := by
  have := filepathJoin_relString base [f] (by simpa using h)
  rwa [relString_of_ne_nil (by simp), joinSlash_singleton] at this

theorem filepathJoin_append (base : Path) (xs ys : List String) :
    filepathJoin base (xs ++ ys) = filepathJoin (filepathJoin base xs) ys := by
  simp [filepathJoin, List.flatMap_append, List.foldl_append]

theorem filepathJoin_names (base : Path) (names : List String)
    (h : ∀ s ∈ names, validName s = true) : filepathJoin base names = base ++ names := by
  induction names using List.reverseRecOn with
  | nil => simp [filepathJoin]
  | append_singleton xs x ih =>
    rw [filepathJoin_append, ih (fun s hs => h s (by simp [hs])),
      filepathJoin_name _ _ (h x (by simp)), List.append_assoc]

theorem commonPrefixLen_append (base q : Path) : commonPrefixLen base (base ++ q) = base.length := by
  induction base with
  | nil => cases q <;> simp [commonPrefixLen]
  | cons a t ih => simp [commonPrefixLen, ih]

theorem filepathRel_append (base q : Path) : filepathRel base (base ++ q) = relString q := by
  simp [filepathRel, commonPrefixLen_append]

theorem filepathDir_relString (q : Path) (f : String)
    (hq : ∀ s ∈ q, validName s = true) (hf : validName f = true) :
    filepathDir (relString (q ++ [f])) = relString q := by
  unfold filepathDir
  rw [splitSegments_relString (q ++ [f]) (by simp)]
  · simp
  · intro s hs
    rcases List.mem_append.1 hs with h | h
    · exact hq s h
    · simp at h; subst h; exact hf

theorem relString_eq_name {d : Path} {f : String} (hd : ∀ s ∈ d, validName s = true)
    (hf : validName f = true) (h : relString d = f) : d = [f] := by
  by_cases hne : d = []
  · subst hne
    rw [relString_nil] at h
    exact absurd h.symm ((validName_iff f).1 hf).2.1
  · have h1 := splitSegments_relString d hne hd
    rw [h, splitSegments_single f ((validName_iff f).1 hf).2.2.2] at h1
    exact h1.symm

theorem relString_injective {a b : Path} (ha : ∀ s ∈ a, validName s = true)
    (hb : ∀ s ∈ b, validName s = true) (h : relString a = relString b) : a = b := by
  by_cases hane : a = []
  · subst hane
    by_cases hbne : b = []
    · exact hbne.symm
    · have h1 := splitSegments_relString b hbne hb
      rw [← h] at h1
      have h2 : splitSegments (relString []) = ["."] := by decide
      rw [h2] at h1
      have := hb "." (by rw [← h1]; simp)
      exact absurd this (by decide)
  · by_cases hbne : b = []
    · subst hbne
      have h1 := splitSegments_relString a hane ha
      rw [h] at h1
      have h2 : splitSegments (relString []) = ["."] := by decide
      rw [h2] at h1
      have := ha "." (by rw [← h1]; simp)
      exact absurd this (by decide)
    · rw [← splitSegments_relString a hane ha, ← splitSegments_relString b hbne hb, h]

/-! ## TreeWalker: what the walk of `readTree` computes -/

theorem entriesWf_cons (k : String) (n : Node) (rest : List (String × Node)) :
    entriesWf ((k, n) :: rest) = true ↔
      validName k = true ∧ n.wf = true ∧ entriesWf rest = true := by
  simp [entriesWf, and_assoc]

theorem Node.wf_dir (es : List (String × Node)) :
    (Node.dir es).wf = true ↔
      (es.map (fun e => e.1.data)).Pairwise (· < ·) ∧ entriesWf es = true := by
  simp [Node.wf]

theorem readTreeRecord_fst (tree : Tree) (d r : String) : (readTreeRecord tree d r).1 = .next := by
  unfold readTreeRecord
  split <;> rfl

theorem readTreeRecord_self (tree : Tree) (r : String) : readTreeRecord tree r r = (.next, tree) := by
  simp [readTreeRecord]

theorem walkEntries_readTreeFn (dir : Path) (skip : List String) :
    ∀ (es : List (String × Node)) (rel : Path) (tree : Tree), entriesWf es = true →
      (∀ s ∈ rel, validName s = true) →
      walkEntries (readTreeFn dir skip) (dir ++ rel) es tree
        = (.next, recordAll tree (filesOfEntries skip rel es))
  | [], rel, tree, _, _ => by simp [walkEntries, filesOfEntries, recordAll]
  | (k, .file c) :: rest, rel, tree, hwf, hrel => by
    obtain ⟨hk, -, hrest⟩ := (entriesWf_cons _ _ _).1 hwf
    have hstep : walkNode (readTreeFn dir skip) (dir ++ rel ++ [k]) k (.file c) tree
        = (.next, (readTreeRecord tree (relString rel) k).2) := by
      simp only [walkNode, readTreeFn, List.append_assoc, filepathRel_append,
        filepathDir_relString rel k hrel hk, Bool.not_false, if_true]
      exact Prod.ext (readTreeRecord_fst _ _ _) rfl
    rw [walkEntries, hstep]
    simp only
    rw [walkEntries_readTreeFn dir skip rest rel _ hrest hrel]
    simp [filesOfEntries, recordAll]
  | (k, .dir es') :: rest, rel, tree, hwf, hrel => by
    obtain ⟨hk, hn, hrest⟩ := (entriesWf_cons _ _ _).1 hwf
    have hes' : entriesWf es' = true := ((Node.wf_dir es').1 hn).2
    have hrel' : ∀ s ∈ rel ++ [k], validName s = true := by
      intro s hs
      rcases List.mem_append.1 hs with h | h
      · exact hrel s h
      · simp at h; subst h; exact hk
    by_cases hskip : k ∈ skip
    · have hstep : walkNode (readTreeFn dir skip) (dir ++ rel ++ [k]) k (.dir es') tree
          = (.skipDir, tree) := by
        simp [walkNode, readTreeFn, hskip]
      rw [walkEntries, hstep]
      simp only [Node.isDir, if_true]
      rw [walkEntries_readTreeFn dir skip rest rel _ hrest hrel]
      simp [filesOfEntries, hskip]
    · have hstep : walkNode (readTreeFn dir skip) (dir ++ rel ++ [k]) k (.dir es') tree
          = (.next, recordAll tree (filesOfEntries skip (rel ++ [k]) es')) := by
        have := walkEntries_readTreeFn dir skip es' (rel ++ [k]) tree hes' hrel'
        simp [walkNode, readTreeFn, hskip, readTreeRecord_self]
        exact this
      rw [walkEntries, hstep]
      simp only
      rw [walkEntries_readTreeFn dir skip rest rel _ hrest hrel]
      simp [filesOfEntries, hskip, recordAll, List.foldl_append]

/-! ## The files a walk meets, in terms of the paths of the filesystem -/

theorem Node.get?_nil (n : Node) : n.get? [] = some n := by
  cases n <;> rfl

theorem Node.get?_file_cons (c : List Nat) (s : String) (p : Path) :
    (Node.file c).get? (s :: p) = none := rfl

theorem Node.get?_dir_cons (es : List (String × Node)) (s : String) (p : Path) :
    (Node.dir es).get? (s :: p) = (es.lookup s).bind (fun c => c.get? p) := by
  simp only [Node.get?]
  cases es.lookup s <;> rfl

theorem lookup_cons_eq (s k : String) (n : Node) (rest : List (String × Node)) :
    List.lookup s ((k, n) :: rest) = if s = k then some n else rest.lookup s := by
  by_cases h : s = k
  · simp [List.lookup, h]
  · have : (s == k) = false := by simpa using h
    simp [List.lookup, this, h]

theorem lookup_some_mem {s : String} {n : Node} :
    ∀ {es : List (String × Node)}, es.lookup s = some n → (s, n) ∈ es
  | [], h => by simp at h
  | (k, m) :: rest, h => by
    rw [lookup_cons_eq] at h
    by_cases hs : s = k
    · rw [if_pos hs] at h
      cases h
      simp [hs]
    · rw [if_neg hs] at h
      exact List.mem_cons_of_mem _ (lookup_some_mem h)

theorem sorted_head_ne {k : String} {n : Node} {rest : List (String × Node)}
    (h : (((k, n) :: rest).map (fun e => e.1.data)).Pairwise (· < ·))
    {s : String} {m : Node} (hs : rest.lookup s = some m) : s ≠ k := by
  rintro rfl
  have hmem := lookup_some_mem hs
  rw [List.map_cons, List.pairwise_cons] at h
  have := h.1 s.data (List.mem_map.2 ⟨(s, m), hmem, rfl⟩)
  exact lt_irrefl _ this

theorem Node.wf_dir_tail {e : String × Node} {rest : List (String × Node)}
    (h : (Node.dir (e :: rest)).wf = true) : (Node.dir rest).wf = true := by
  obtain ⟨k, n⟩ := e
  rw [Node.wf_dir] at h ⊢
  rw [List.map_cons, List.pairwise_cons] at h
  exact ⟨h.1.2, ((entriesWf_cons _ _ _).1 h.2).2.2⟩

theorem Node.wf_dir_head {k : String} {n : Node} {rest : List (String × Node)}
    (h : (Node.dir ((k, n) :: rest)).wf = true) : validName k = true ∧ n.wf = true := by
  rw [Node.wf_dir] at h
  exact ⟨((entriesWf_cons _ _ _).1 h.2).1, ((entriesWf_cons _ _ _).1 h.2).2.1⟩

theorem get?_dir_cons_ne {k : String} {n : Node} {rest : List (String × Node)}
    {s : String} (p : Path) (h : s ≠ k) :
    (Node.dir ((k, n) :: rest)).get? (s :: p) = (Node.dir rest).get? (s :: p) := by
  rw [Node.get?_dir_cons, Node.get?_dir_cons, lookup_cons_eq, if_neg h]

theorem get?_dir_cons_eq {k : String} {n : Node} {rest : List (String × Node)} (p : Path) :
    (Node.dir ((k, n) :: rest)).get? (k :: p) = n.get? p := by
  rw [Node.get?_dir_cons, lookup_cons_eq, if_pos rfl]
  rfl

theorem get?_dir_tail_of_sorted {k : String} {n : Node} {rest : List (String × Node)}
    (h : (Node.dir ((k, n) :: rest)).wf = true) {s : String} {p : Path} {m : Node}
    (hm : (Node.dir rest).get? (s :: p) = some m) :
    (Node.dir ((k, n) :: rest)).get? (s :: p) = some m := by
  have hne : s ≠ k := by
    rw [Node.get?_dir_cons] at hm
    cases hl : rest.lookup s with
    | none => rw [hl] at hm; simp at hm
    | some c => exact sorted_head_ne ((Node.wf_dir _).1 h).1 hl
  rw [get?_dir_cons_ne p hne, hm]

theorem mem_filesOfEntries (skip : List String) :
    ∀ (es : List (String × Node)) (rel d : Path) (f : String), (Node.dir es).wf = true →
      ((d, f) ∈ filesOfEntries skip rel es ↔
        ∃ q c, d = rel ++ q ∧ (∀ s ∈ q, s ∉ skip) ∧
          (Node.dir es).get? (q ++ [f]) = some (.file c))
  | [], rel, d, f, _ => by
    simp only [filesOfEntries, List.not_mem_nil, false_iff]
    rintro ⟨q, c, -, -, h⟩
    cases q <;> simp [Node.get?_dir_cons] at h
  | (k, .file c0) :: rest, rel, d, f, hwf => by
    have ih := mem_filesOfEntries skip rest rel d f (Node.wf_dir_tail hwf)
    simp only [filesOfEntries, List.mem_cons, Prod.mk.injEq, ih]
    constructor
    · rintro (⟨rfl, rfl⟩ | ⟨q, c, hd, hq, hg⟩)
      · exact ⟨[], c0, by simp, by simp, by simpa using get?_dir_cons_eq (n := .file c0) []⟩
      · refine ⟨q, c, hd, hq, ?_⟩
        cases q with
        | nil => exact get?_dir_tail_of_sorted hwf hg
        | cons s q' => exact get?_dir_tail_of_sorted hwf hg
    · rintro ⟨q, c, hd, hq, hg⟩
      cases q with
      | nil =>
        by_cases hf : f = k
        · subst hf
          left
          exact ⟨by simpa using hd, rfl⟩
        · right
          refine ⟨[], c, hd, hq, ?_⟩
          simpa [get?_dir_cons_ne [] hf] using hg
      | cons s q' =>
        by_cases hs : s = k
        · subst hs
          simp only [List.cons_append, get?_dir_cons_eq] at hg
          cases q' <;> simp [Node.get?] at hg
        · right
          refine ⟨s :: q', c, hd, hq, ?_⟩
          simpa [get?_dir_cons_ne _ hs] using hg
  | (k, .dir es') :: rest, rel, d, f, hwf => by
    have ih := mem_filesOfEntries skip rest rel d f (Node.wf_dir_tail hwf)
    have ih' := mem_filesOfEntries skip es' (rel ++ [k]) d f (Node.wf_dir_head hwf).2
    simp only [filesOfEntries, List.mem_append, ih]
    constructor
    · rintro (h | ⟨q, c, hd, hq, hg⟩)
      · by_cases hskip : k ∈ skip
        · have hc : skip.contains k = true := by simpa using hskip
          rw [hc] at h
          simp at h
        · have hc : skip.contains k = false := by simpa using hskip
          rw [hc] at h
          simp only [Bool.false_eq_true, if_false] at h
          obtain ⟨q', c, hd, hq, hg⟩ := ih'.1 h
          refine ⟨k :: q', c, by simpa using hd, ?_, ?_⟩
          · intro s hs
            rcases List.mem_cons.1 hs with rfl | hs
            · exact hskip
            · exact hq s hs
          · simpa [get?_dir_cons_eq] using hg
      · refine ⟨q, c, hd, hq, ?_⟩
        cases q with
        | nil => exact get?_dir_tail_of_sorted hwf hg
        | cons s q' => exact get?_dir_tail_of_sorted hwf hg
    · rintro ⟨q, c, hd, hq, hg⟩
      cases q with
      | nil =>
        by_cases hf : f = k
        · subst hf
          simp [get?_dir_cons_eq, Node.get?_nil] at hg
        · right
          refine ⟨[], c, hd, hq, ?_⟩
          simpa [get?_dir_cons_ne [] hf] using hg
      | cons s q' =>
        by_cases hs : s = k
        · subst hs
          left
          have hskip : s ∉ skip := hq s (by simp)
          have hc : skip.contains s = false := by simpa using hskip
          rw [hc]
          simp only [Bool.false_eq_true, if_false]
          refine ih'.2 ⟨q', c, by simpa using hd, fun t ht => hq t (by simp [ht]), ?_⟩
          simpa [get?_dir_cons_eq] using hg
        · right
          refine ⟨s :: q', c, hd, hq, ?_⟩
          simpa [get?_dir_cons_ne _ hs] using hg

/-! ## `readTree` on a well-formed filesystem -/

theorem Node.get?_append (p q : Path) : ∀ n : Node,
    n.get? (p ++ q) = (n.get? p).bind (fun m => m.get? q) := by
  induction p with
  | nil => intro n; simp [Node.get?_nil]
  | cons s p ih =>
    intro n
    cases n with
    | file c => simp [Node.get?_file_cons]
    | dir es =>
      simp only [List.cons_append, Node.get?_dir_cons]
      cases es.lookup s with
      | none => rfl
      | some c => simpa using ih c

theorem entriesWf_mem {k : String} {n : Node} :
    ∀ {es : List (String × Node)}, entriesWf es = true → (k, n) ∈ es →
      validName k = true ∧ n.wf = true
  | [], _, h => by simp at h
  | (k', n') :: rest, hwf, h => by
    obtain ⟨h1, h2, h3⟩ := (entriesWf_cons _ _ _).1 hwf
    rcases List.mem_cons.1 h with h | h
    · cases h; exact ⟨h1, h2⟩
    · exact entriesWf_mem h3 h

theorem Node.wf_get? (p : Path) : ∀ (n m : Node), n.wf = true → n.get? p = some m →
    (∀ s ∈ p, validName s = true) ∧ m.wf = true := by
  induction p with
  | nil =>
    intro n m hwf h
    rw [Node.get?_nil] at h
    cases h
    exact ⟨by simp, hwf⟩
  | cons s p ih =>
    intro n m hwf h
    cases n with
    | file c => simp [Node.get?_file_cons] at h
    | dir es =>
      rw [Node.get?_dir_cons] at h
      cases hl : es.lookup s with
      | none => rw [hl] at h; simp at h
      | some c =>
        rw [hl] at h
        have hc := entriesWf_mem ((Node.wf_dir es).1 hwf).2 (lookup_some_mem hl)
        obtain ⟨h1, h2⟩ := ih c m hc.2 h
        refine ⟨?_, h2⟩
        intro t ht
        rcases List.mem_cons.1 ht with rfl | ht
        · exact hc.1
        · exact h1 t ht

theorem Node.stat_eq_ok (p : Path) : ∀ (n m : Node), n.get? p = some m → n.stat p = .ok m := by
  induction p with
  | nil =>
    intro n m h
    rw [Node.get?_nil] at h
    cases h
    cases n <;> rfl
  | cons s p ih =>
    intro n m h
    cases n with
    | file c => simp [Node.get?_file_cons] at h
    | dir es =>
      rw [Node.get?_dir_cons] at h
      simp only [Node.stat]
      cases hl : es.lookup s with
      | none => rw [hl] at h; simp at h
      | some c =>
        rw [hl] at h
        exact ih c m h

theorem mem_treePairs_treeAppend (key f d r : String) : ∀ tree : Tree,
    (key, f) ∈ treePairs (treeAppend tree d r) ↔
      (key, f) ∈ treePairs tree ∨ (key = d ∧ f = r)
  | [] => by simp [treeAppend, treePairs]
  | (k, v) :: rest => by
    have ih := mem_treePairs_treeAppend key f d r rest
    unfold treePairs at ih ⊢
    by_cases h : k = d
    · subst h
      simp only [treeAppend, if_true, List.flatMap_cons, List.map_append, List.mem_append,
        List.mem_map, Prod.mk.injEq, List.map_cons, List.map_nil, List.mem_singleton]
      constructor
      · rintro ((h | h) | h)
        · exact Or.inl (Or.inl h)
        · obtain ⟨rfl, rfl⟩ := h
          exact Or.inr ⟨rfl, rfl⟩
        · exact Or.inl (Or.inr h)
      · rintro ((h | h) | ⟨rfl, rfl⟩)
        · exact Or.inl (Or.inl h)
        · exact Or.inr h
        · exact Or.inl (Or.inr ⟨rfl, rfl⟩)
    · simp only [treeAppend, if_neg h, List.flatMap_cons, List.mem_append, ih]
      tauto

theorem mem_treePairs_recordAll (key f : String) : ∀ (ps : List (Path × String)) (tree : Tree),
    (key, f) ∈ treePairs (recordAll tree ps) ↔
      (key, f) ∈ treePairs tree ∨
        ∃ p ∈ ps, key = relString p.1 ∧ f = p.2 ∧ relString p.1 ≠ p.2
  | [], tree => by simp [recordAll]
  | p :: ps, tree => by
    have ih := mem_treePairs_recordAll key f ps (readTreeRecord tree (relString p.1) p.2).2
    have hunfold : recordAll tree (p :: ps)
        = recordAll (readTreeRecord tree (relString p.1) p.2).2 ps := rfl
    rw [hunfold, ih]
    by_cases h : relString p.1 = p.2
    · simp only [readTreeRecord, h, if_true, List.mem_cons, exists_eq_or_imp, ne_eq,
        not_true_eq_false, and_false, false_or]
    · simp only [readTreeRecord, h, if_false, mem_treePairs_treeAppend, List.mem_cons,
        exists_eq_or_imp, ne_eq, not_false_eq_true, and_true]
      tauto

theorem World.log_root (w : World) (c : Call) : (w.log c).root = w.root := rfl

theorem World.log_trace (w : World) (c : Call) : (w.log c).trace = w.trace ++ [c] := rfl

theorem readTree_eq (dir : Path) (skip : List String) (w : World) (es : List (String × Node))
    (hwf : w.root.wf = true) (hdir : w.root.get? dir = some (.dir es))
    (hskip : skip.contains (pathBase dir) = false) :
    readTree dir skip w
      = (.ok (recordAll [] (filesOfEntries skip [] es)), (w.log (.stat dir)).log (.walk dir)) := by
  have hes : entriesWf es = true := ((Node.wf_dir es).1 (Node.wf_get? dir _ _ hwf hdir).2).2
  have hwalk := walkEntries_readTreeFn dir skip es [] [] hes (by simp)
  rw [List.append_nil] at hwalk
  have hrel : filepathRel dir dir = relString [] := by
    simpa using filepathRel_append dir []
  simp only [readTree, osStat, Node.stat_eq_ok dir _ _ hdir, filepathWalk, World.log_root, hdir,
    walkNode, readTreeFn, hskip, Bool.not_true, Bool.false_eq_true, if_false,
    readTreeRecord_self, hwalk]

theorem mem_readTree_pairs (dir : Path) (skip : List String) (w : World)
    (es : List (String × Node)) (hwf : w.root.wf = true)
    (hdir : w.root.get? dir = some (.dir es)) (key f : String) :
    (key, f) ∈ treePairs (recordAll [] (filesOfEntries skip [] es)) ↔
      ∃ d c, key = relString d ∧ (∀ s ∈ d, s ∉ skip) ∧
        w.root.fileAt (dir ++ d ++ [f]) = some c ∧ relString d ≠ f := by
  have hwfes : (Node.dir es).wf = true := (Node.wf_get? dir _ _ hwf hdir).2
  have hget : ∀ d : Path, w.root.get? (dir ++ d ++ [f]) = (Node.dir es).get? (d ++ [f]) := by
    intro d
    rw [List.append_assoc, Node.get?_append, hdir]
    rfl
  rw [mem_treePairs_recordAll]
  simp only [treePairs, List.flatMap_nil, List.not_mem_nil, false_or, Node.fileAt]
  constructor
  · rintro ⟨⟨d, f'⟩, hmem, rfl, rfl, hne⟩
    obtain ⟨q, c, hd, hq, hg⟩ := (mem_filesOfEntries skip es [] d f hwfes).1 hmem
    simp only [List.nil_append] at hd
    subst hd
    exact ⟨d, c, rfl, hq, by rw [hget, hg], hne⟩
  · rintro ⟨d, c, rfl, hq, hg, hne⟩
    refine ⟨(d, f), ?_, rfl, rfl, hne⟩
    rw [mem_filesOfEntries skip es [] d f hwfes]
    rw [hget] at hg
    cases hg' : (Node.dir es).get? (d ++ [f]) with
    | none => rw [hg'] at hg; simp at hg
    | some m =>
      rw [hg'] at hg
      cases m with
      | dir _ => simp at hg
      | file c' => exact ⟨d, c', by simp, hq, hg'⟩

/-! ## The filesystem after `os.MkdirAll` and `ioutil.WriteFile` -/

theorem Node.kindAt_nil (n : Node) : n.kindAt [] = some n.kind := by
  simp [Node.kindAt, Node.get?_nil]

theorem Node.kindAt_file_cons (c : List Nat) (s : String) (p : Path) :
    (Node.file c).kindAt (s :: p) = none := rfl

theorem Node.kindAt_dir_cons (es : List (String × Node)) (s : String) (p : Path) :
    (Node.dir es).kindAt (s :: p) = (es.lookup s).bind (fun c => c.kindAt p) := by
  simp only [Node.kindAt, Node.get?_dir_cons]
  cases es.lookup s <;> rfl

theorem Node.kindAt_empty_dir (p : Path) (h : p ≠ []) : (Node.dir []).kindAt p = none := by
  cases p with
  | nil => exact absurd rfl h
  | cons s p => simp [Node.kindAt_dir_cons]

theorem Node.fileAt_eq (n : Node) (p : Path) (c : List Nat) :
    n.fileAt p = some c ↔ n.kindAt p = some (.file c) := by
  unfold Node.fileAt Node.kindAt
  cases n.get? p with
  | none => simp
  | some m => cases m <;> simp [Node.kind]

theorem Node.fileAt_eq_none (n : Node) (p : Path) :
    n.fileAt p = none ↔ ∀ c, n.kindAt p ≠ some (.file c) := by
  unfold Node.fileAt Node.kindAt
  cases n.get? p with
  | none => simp
  | some m => cases m <;> simp [Node.kind]

theorem Node.dirAt_eq (n : Node) (p : Path) : n.dirAt p = true ↔ n.kindAt p = some .dir := by
  unfold Node.dirAt Node.kindAt
  cases n.get? p with
  | none => simp
  | some m => cases m <;> simp [Node.kind]

theorem Node.existsAt_eq_false (n : Node) (p : Path) :
    n.existsAt p = false ↔ n.kindAt p = none := by
  unfold Node.existsAt Node.kindAt
  cases n.get? p <;> simp

theorem Node.kindAt_append_of_file {n : Node} {p : Path} {c : List Nat}
    (h : n.kindAt p = some (.file c)) (q : Path) (hq : q ≠ []) : n.kindAt (p ++ q) = none := by
  unfold Node.kindAt at h ⊢
  rw [Node.get?_append]
  cases hg : n.get? p with
  | none => rfl
  | some m =>
    rw [hg] at h
    cases m with
    | dir es => simp [Node.kind] at h
    | file c' =>
      cases q with
      | nil => exact absurd rfl hq
      | cons s q => rfl

theorem Node.kindAt_prefix_of_some {n : Node} {p q : Path} {k : Kind}
    (h : n.kindAt (p ++ q) = some k) (hq : q ≠ []) : n.kindAt p = some .dir := by
  unfold Node.kindAt at h ⊢
  rw [Node.get?_append] at h
  cases hg : n.get? p with
  | none => rw [hg] at h; simp at h
  | some m =>
    rw [hg] at h
    cases m with
    | dir es => rfl
    | file c' =>
      cases q with
      | nil => exact absurd rfl hq
      | cons s q => simp [Node.get?_file_cons] at h

theorem lookup_insertEntry (s k : String) (v : Node) : ∀ es : List (String × Node),
    (insertEntry k v es).lookup s = if s = k then some v else es.lookup s
  | [] => by
    simp only [insertEntry, lookup_cons_eq]
  | (k0, v0) :: rest => by
    have ih := lookup_insertEntry s k v rest
    unfold insertEntry
    by_cases h1 : k.data < k0.data
    · rw [if_pos h1, lookup_cons_eq]
    · rw [if_neg h1]
      by_cases h2 : k = k0
      · subst h2
        rw [if_pos rfl, lookup_cons_eq, lookup_cons_eq]
        by_cases h3 : s = k <;> simp [h3]
      · rw [if_neg h2, lookup_cons_eq, ih, lookup_cons_eq]
        by_cases h3 : s = k0
        · subst h3
          have : s ≠ k := fun h => h2 h.symm
          simp [this]
        · simp [h3]

theorem kindAt_insertEntry (es : List (String × Node)) (k : String) (v : Node) (s : String)
    (q : Path) :
    (Node.dir (insertEntry k v es)).kindAt (s :: q)
      = if s = k then v.kindAt q else (Node.dir es).kindAt (s :: q) := by
  rw [Node.kindAt_dir_cons, lookup_insertEntry, Node.kindAt_dir_cons]
  by_cases h : s = k <;> simp [h]

theorem Node.kindAt_mkdirAll (p : Path) : ∀ (n n' : Node) (q : Path), n.mkdirAll p = .ok n' →
    n'.kindAt q = if q <+: p then some .dir else n.kindAt q := by
  induction p with
  | nil =>
    intro n n' q h
    cases n with
    | file c => simp [Node.mkdirAll] at h
    | dir es =>
      simp only [Node.mkdirAll, Except.ok.injEq] at h
      subst h
      by_cases hq : q <+: []
      · rw [if_pos hq]
        have : q = [] := List.prefix_nil.1 hq
        subst this
        rfl
      · rw [if_neg hq]
  | cons s p ih =>
    intro n n' q h
    cases n with
    | file c => simp [Node.mkdirAll] at h
    | dir es =>
      simp only [Node.mkdirAll] at h
      cases hc : ((es.lookup s).getD (.dir [])).mkdirAll p with
      | error e => rw [hc] at h; simp at h
      | ok c' =>
        rw [hc] at h
        simp only [Except.ok.injEq] at h
        subst h
        cases q with
        | nil => simp [Node.kindAt_nil, Node.kind]
        | cons t q =>
          rw [kindAt_insertEntry]
          by_cases hts : t = s
          · subst hts
            rw [if_pos rfl, ih _ _ q hc]
            have hpre : (t :: q <+: t :: p) ↔ q <+: p := by
              simp [List.cons_prefix_cons]
            by_cases hq : q <+: p
            · rw [if_pos hq, if_pos (hpre.2 hq)]
            · rw [if_neg hq, if_neg (fun h => hq (hpre.1 h)), Node.kindAt_dir_cons]
              cases hl : es.lookup t with
              | some c0 => simp
              | none =>
                simp only [Option.getD_none, Option.bind_none]
                apply Node.kindAt_empty_dir
                rintro rfl
                exact hq (List.nil_prefix)
          · rw [if_neg hts]
            have : ¬ (t :: q <+: s :: p) := by
              simp [List.cons_prefix_cons, hts]
            rw [if_neg this]

theorem Node.mkdirAll_ok (p : Path) : ∀ (n : Node),
    (∀ q c, q <+: p → n.kindAt q ≠ some (.file c)) → ∃ n', n.mkdirAll p = .ok n' := by
  induction p with
  | nil =>
    intro n h
    cases n with
    | file c => exact absurd (Node.kindAt_nil _) (h [] c (List.prefix_refl _))
    | dir es => exact ⟨_, rfl⟩
  | cons s p ih =>
    intro n h
    cases n with
    | file c => exact absurd (Node.kindAt_nil _) (h [] c List.nil_prefix)
    | dir es =>
      have hc : ∀ q c, q <+: p → ((es.lookup s).getD (.dir [])).kindAt q ≠ some (.file c) := by
        intro q c hq
        have := h (s :: q) c (by simpa [List.cons_prefix_cons] using hq)
        rw [Node.kindAt_dir_cons] at this
        cases hl : es.lookup s with
        | some c0 => rw [hl] at this; simpa using this
        | none =>
          simp only [Option.getD_none]
          cases q with
          | nil => simp [Node.kindAt_nil, Node.kind]
          | cons t q => simp [Node.kindAt_dir_cons]
      obtain ⟨c', hc'⟩ := ih _ hc
      refine ⟨.dir (insertEntry s c' es), ?_⟩
      simp [Node.mkdirAll, hc']

theorem Node.kindAt_writeFile (p : Path) : ∀ (n n' : Node) (content : List Nat) (q : Path),
    n.writeFile p content = .ok n' →
    n'.kindAt q = if q = p then some (.file content) else n.kindAt q := by
  induction p with
  | nil => intro n n' content q h; simp [Node.writeFile] at h
  | cons s p ih =>
    intro n n' content q h
    cases n with
    | file c => simp [Node.writeFile] at h
    | dir es =>
      cases p with
      | nil =>
        simp only [Node.writeFile] at h
        have hn' : n' = .dir (insertEntry s (.file content) es) ∧
            ∀ es', es.lookup s ≠ some (.dir es') := by
          cases hl : es.lookup s with
          | none => rw [hl] at h; simp at h; exact ⟨h.symm, by simp⟩
          | some c0 =>
            rw [hl] at h
            cases c0 with
            | dir es' => simp at h
            | file c1 => simp at h; exact ⟨h.symm, by simp⟩
        obtain ⟨rfl, hnd⟩ := hn'
        cases q with
        | nil => simp [Node.kindAt_nil, Node.kind]
        | cons t q =>
          rw [kindAt_insertEntry]
          by_cases hts : t = s
          · subst hts
            rw [if_pos rfl]
            cases q with
            | nil => simp [Node.kindAt_nil, Node.kind]
            | cons u q =>
              simp only [Node.kindAt_file_cons, List.cons.injEq, true_and, reduceCtorEq,
                if_false, Node.kindAt_dir_cons]
              cases hl : es.lookup t with
              | none => rfl
              | some c0 =>
                cases c0 with
                | dir es' => exact absurd hl (hnd es')
                | file c1 => rfl
          · rw [if_neg hts]
            have : ¬ (t :: q = [s]) := by simp [hts]
            rw [if_neg this]
      | cons t p =>
        simp only [Node.writeFile] at h
        cases hl : es.lookup s with
        | none => rw [hl] at h; simp at h
        | some c0 =>
          rw [hl] at h
          simp only at h
          cases hc : c0.writeFile (t :: p) content with
          | error e => rw [hc] at h; simp at h
          | ok c' =>
            rw [hc] at h
            simp only [Except.ok.injEq] at h
            subst h
            cases q with
            | nil => simp [Node.kindAt_nil, Node.kind]
            | cons u q =>
              rw [kindAt_insertEntry]
              by_cases hus : u = s
              · subst hus
                rw [if_pos rfl, ih _ _ _ q hc, Node.kindAt_dir_cons, hl]
                simp
              · rw [if_neg hus]
                have : ¬ (u :: q = s :: t :: p) := by simp [hus]
                rw [if_neg this]

theorem Node.writeFile_ok (p : Path) : ∀ (n : Node) (content : List Nat) (f : String),
    n.kindAt p = some .dir → n.kindAt (p ++ [f]) ≠ some .dir →
    ∃ n', n.writeFile (p ++ [f]) content = .ok n' := by
  induction p with
  | nil =>
    intro n content f hd hf
    cases n with
    | file c => simp [Node.kindAt_nil, Node.kind] at hd
    | dir es =>
      simp only [List.nil_append, Node.writeFile]
      rw [List.nil_append, Node.kindAt_dir_cons] at hf
      cases hl : es.lookup f with
      | none => exact ⟨_, rfl⟩
      | some c0 =>
        cases c0 with
        | file c1 => exact ⟨_, rfl⟩
        | dir es' => rw [hl] at hf; simp [Node.kindAt_nil, Node.kind] at hf
  | cons s p ih =>
    intro n content f hd hf
    cases n with
    | file c => simp [Node.kindAt_file_cons] at hd
    | dir es =>
      rw [Node.kindAt_dir_cons] at hd
      rw [List.cons_append, Node.kindAt_dir_cons] at hf
      cases hl : es.lookup s with
      | none => rw [hl] at hd; simp at hd
      | some c0 =>
        rw [hl] at hd hf
        have hd' : c0.kindAt p = some .dir := hd
        have hf' : c0.kindAt (p ++ [f]) ≠ some .dir := hf
        obtain ⟨c', hc'⟩ := ih c0 content f hd' hf'
        cases hp : p ++ [f] with
        | nil => simp at hp
        | cons t r =>
          rw [hp] at hc'
          refine ⟨.dir (insertEntry s c' es), ?_⟩
          show (Node.dir es).writeFile (s :: (p ++ [f])) content = _
          rw [hp]
          simp [Node.writeFile, hl, hc']

/-! ## Well-formedness is kept by `os.MkdirAll` and `ioutil.WriteFile` -/

theorem entriesWf_iff : ∀ es : List (String × Node),
    entriesWf es = true ↔ ∀ e ∈ es, validName e.1 = true ∧ e.2.wf = true
  | [] => by simp [entriesWf]
  | (k, n) :: rest => by
    rw [entriesWf_cons, entriesWf_iff rest]
    simp only [List.mem_cons, forall_eq_or_imp]
    tauto

theorem mem_insertEntry {k : String} {v : Node} {e : String × Node} :
    ∀ {es : List (String × Node)}, e ∈ insertEntry k v es → e = (k, v) ∨ e ∈ es
  | [], h => by
    simp only [insertEntry, List.mem_singleton] at h
    exact Or.inl h
  | (k0, v0) :: rest, h => by
    unfold insertEntry at h
    by_cases h1 : k.data < k0.data
    · rw [if_pos h1] at h
      rcases List.mem_cons.1 h with h | h
      · exact Or.inl h
      · exact Or.inr h
    · rw [if_neg h1] at h
      by_cases h2 : k = k0
      · rw [if_pos h2] at h
        rcases List.mem_cons.1 h with h | h
        · exact Or.inl h
        · exact Or.inr (List.mem_cons_of_mem _ h)
      · rw [if_neg h2] at h
        rcases List.mem_cons.1 h with h | h
        · exact Or.inr (by rw [h]; exact List.mem_cons_self _ _)
        · rcases mem_insertEntry h with h | h
          · exact Or.inl h
          · exact Or.inr (List.mem_cons_of_mem _ h)

theorem sorted_insertEntry (k : String) (v : Node) : ∀ es : List (String × Node),
    (es.map (fun e => e.1.data)).Pairwise (· < ·) →
    ((insertEntry k v es).map (fun e => e.1.data)).Pairwise (· < ·)
  | [], _ => by simp [insertEntry]
  | (k0, v0) :: rest, h => by
    have h' := h
    rw [List.map_cons, List.pairwise_cons] at h'
    unfold insertEntry
    by_cases h1 : k.data < k0.data
    · rw [if_pos h1, List.map_cons, List.pairwise_cons]
      refine ⟨?_, h⟩
      intro a ha
      rw [List.map_cons] at ha
      rcases List.mem_cons.1 ha with rfl | ha
      · exact h1
      · exact lt_trans h1 (h'.1 a ha)
    · rw [if_neg h1]
      by_cases h2 : k = k0
      · subst h2
        rw [if_pos rfl]
        exact h
      · rw [if_neg h2, List.map_cons, List.pairwise_cons]
        refine ⟨?_, sorted_insertEntry k v rest h'.2⟩
        intro a ha
        obtain ⟨e, he, rfl⟩ := List.mem_map.1 ha
        rcases mem_insertEntry he with rfl | he
        · have hne : k.data ≠ k0.data := fun hd => h2 (String.ext hd)
          exact lt_of_le_of_ne (not_lt.1 h1) (Ne.symm hne)
        · exact h'.1 _ (List.mem_map.2 ⟨e, he, rfl⟩)

theorem Node.wf_insertEntry {es : List (String × Node)} {k : String} {v : Node}
    (h : (Node.dir es).wf = true) (hk : validName k = true) (hv : v.wf = true) :
    (Node.dir (insertEntry k v es)).wf = true := by
  rw [Node.wf_dir] at h ⊢
  refine ⟨sorted_insertEntry k v es h.1, ?_⟩
  rw [entriesWf_iff] at h ⊢
  intro e he
  rcases mem_insertEntry he with rfl | he
  · exact ⟨hk, hv⟩
  · exact h.2 e he

theorem Node.wf_lookup_getD {es : List (String × Node)} (h : (Node.dir es).wf = true)
    (s : String) : ((es.lookup s).getD (.dir [])).wf = true := by
  cases hl : es.lookup s with
  | none => decide
  | some c => exact (entriesWf_mem ((Node.wf_dir es).1 h).2 (lookup_some_mem hl)).2

theorem Node.wf_mkdirAll (p : Path) : ∀ (n n' : Node), n.wf = true →
    (∀ s ∈ p, validName s = true) → n.mkdirAll p = .ok n' → n'.wf = true := by
  induction p with
  | nil =>
    intro n n' hwf _ h
    cases n with
    | file c => simp [Node.mkdirAll] at h
    | dir es =>
      simp only [Node.mkdirAll, Except.ok.injEq] at h
      subst h
      exact hwf
  | cons s p ih =>
    intro n n' hwf hp h
    cases n with
    | file c => simp [Node.mkdirAll] at h
    | dir es =>
      simp only [Node.mkdirAll] at h
      cases hc : ((es.lookup s).getD (.dir [])).mkdirAll p with
      | error e => rw [hc] at h; simp at h
      | ok c' =>
        rw [hc] at h
        simp only [Except.ok.injEq] at h
        subst h
        exact Node.wf_insertEntry hwf (hp s (by simp))
          (ih _ _ (Node.wf_lookup_getD hwf s) (fun t ht => hp t (by simp [ht])) hc)

theorem Node.wf_writeFile (p : Path) : ∀ (n n' : Node) (content : List Nat), n.wf = true →
    (∀ s ∈ p, validName s = true) → n.writeFile p content = .ok n' → n'.wf = true := by
  induction p with
  | nil => intro n n' content _ _ h; simp [Node.writeFile] at h
  | cons s p ih =>
    intro n n' content hwf hp h
    cases n with
    | file c => simp [Node.writeFile] at h
    | dir es =>
      cases p with
      | nil =>
        simp only [Node.writeFile] at h
        have hn' : n' = .dir (insertEntry s (.file content) es) := by
          cases hl : es.lookup s with
          | none => rw [hl] at h; simp at h; exact h.symm
          | some c0 =>
            rw [hl] at h
            cases c0 with
            | dir es' => simp at h
            | file c1 => simp at h; exact h.symm
        subst hn'
        exact Node.wf_insertEntry hwf (hp s (by simp)) rfl
      | cons t p =>
        simp only [Node.writeFile] at h
        cases hl : es.lookup s with
        | none => rw [hl] at h; simp at h
        | some c0 =>
          rw [hl] at h
          simp only at h
          cases hc : c0.writeFile (t :: p) content with
          | error e => rw [hc] at h; simp at h
          | ok c' =>
            rw [hc] at h
            simp only [Except.ok.injEq] at h
            subst h
            have hc0 := (entriesWf_mem ((Node.wf_dir es).1 hwf).2 (lookup_some_mem hl)).2
            exact Node.wf_insertEntry hwf (hp s (by simp))
              (ih _ _ _ hc0 (fun u hu => hp u (by simp [hu])) hc)

/-! ## TreeCopier: one file -/

theorem copyList_append (dst src : Path) : ∀ (a b : List (String × String)) (w : World),
    copyList dst src (a ++ b) w =
      match copyList dst src a w with
      | (.error e, w) => (.error e, w)
      | (.ok _, w) => copyList dst src b w
  | [], b, w => by simp [copyList]
  | (path, f) :: a, b, w => by
    simp only [List.cons_append, copyList]
    cases h : copyFile dst src path f w with
    | mk r w' =>
      cases r with
      | error e => rfl
      | ok u => exact copyList_append dst src a b w'

theorem copyFiles_eq_copyList (dst src : Path) (path : String) :
    ∀ (files : List String) (w : World),
      copyFiles dst src path files w = copyList dst src (files.map (fun f => (path, f))) w
  | [], w => rfl
  | f :: files, w => by
    simp only [copyFiles, List.map_cons, copyList]
    cases h : copyFile dst src path f w with
    | mk r w' =>
      cases r with
      | error e => rfl
      | ok u => exact copyFiles_eq_copyList dst src path files w'

theorem copyTree_eq_copyList (dst src : Path) : ∀ (tree : Tree) (w : World),
    copyTree tree dst src w = copyList dst src (treePairs tree) w
  | [], w => rfl
  | (path, files) :: tree, w => by
    have hp : treePairs ((path, files) :: tree)
        = files.map (fun f => (path, f)) ++ treePairs tree := by
      simp [treePairs]
    rw [hp, copyList_append, copyTree, copyFiles_eq_copyList]
    cases h : copyList dst src (files.map (fun f => (path, f))) w with
    | mk r w' =>
      cases r with
      | error e => rfl
      | ok u => exact copyTree_eq_copyList dst src tree w'

theorem Node.get?_of_kindAt_file {n : Node} {p : Path} {c : List Nat}
    (h : n.kindAt p = some (.file c)) : n.get? p = some (.file c) := by
  unfold Node.kindAt at h
  cases hg : n.get? p with
  | none => rw [hg] at h; simp at h
  | some m =>
    rw [hg] at h
    cases m with
    | dir es => simp [Node.kind] at h
    | file c' =>
      simp [Node.kind] at h
      rw [h]

theorem copyFile_ok (dst src d : Path) (f : String) (w : World) (c : List Nat)
    (hwf : w.root.wf = true)
    (hdst : ∀ s ∈ dst, validName s = true) (hd : ∀ s ∈ d, validName s = true)
    (hf : validName f = true)
    (ha : ∀ q c', q <+: dst ++ d → w.root.kindAt q ≠ some (.file c'))
    (hb : w.root.kindAt (src ++ d ++ [f]) = some (.file c))
    (hc : w.root.kindAt (dst ++ d ++ [f]) ≠ some .dir) :
    ∃ w', copyFile dst src (relString d) f w = (.ok (), w') ∧ w'.root.wf = true ∧
      w'.trace = w.trace ++
        [.mkdirAll (dst ++ d), .readFile (src ++ d ++ [f]), .writeFile (dst ++ d ++ [f]) c] ∧
      ∀ q, w'.root.kindAt q =
        if q = dst ++ d ++ [f] then some (.file c)
        else if q <+: dst ++ d then some .dir else w.root.kindAt q := by
  obtain ⟨r1, hr1⟩ := Node.mkdirAll_ok (dst ++ d) w.root ha
  have hk1 := fun q => Node.kindAt_mkdirAll (dst ++ d) w.root r1 q hr1
  have hvalid : ∀ s ∈ dst ++ d, validName s = true := by
    intro s hs
    rcases List.mem_append.1 hs with h | h
    · exact hdst s h
    · exact hd s h
  have hwf1 : r1.wf = true := Node.wf_mkdirAll _ _ _ hwf hvalid hr1
  have hnotpre : ¬ (dst ++ d ++ [f] <+: dst ++ d) := by
    intro h
    have := h.length_le
    simp at this
  have hsrc1 : r1.kindAt (src ++ d ++ [f]) = some (.file c) := by
    rw [hk1]
    by_cases hp : src ++ d ++ [f] <+: dst ++ d
    · exact absurd hb (ha _ c hp)
    · rw [if_neg hp, hb]
  have hparent : r1.kindAt (dst ++ d) = some .dir := by
    rw [hk1, if_pos (List.prefix_refl _)]
  have hnotdir : r1.kindAt (dst ++ d ++ [f]) ≠ some .dir := by
    rw [hk1, if_neg hnotpre]
    exact hc
  obtain ⟨r2, hr2⟩ := Node.writeFile_ok (dst ++ d) r1 c f hparent hnotdir
  have hk2 := fun q => Node.kindAt_writeFile (dst ++ d ++ [f]) r1 r2 c q hr2
  have hvalid2 : ∀ s ∈ dst ++ d ++ [f], validName s = true := by
    intro s hs
    rcases List.mem_append.1 hs with h | h
    · exact hvalid s h
    · simp at h; subst h; exact hf
  have hwf2 : r2.wf = true := Node.wf_writeFile _ _ _ _ hwf1 hvalid2 hr2
  have hstat : r1.stat (src ++ d ++ [f]) = .ok (.file c) :=
    Node.stat_eq_ok _ _ _ (Node.get?_of_kindAt_file hsrc1)
  refine ⟨⟨r2, w.trace ++ [.mkdirAll (dst ++ d), .readFile (src ++ d ++ [f]),
    .writeFile (dst ++ d ++ [f]) c]⟩, ?_, hwf2, rfl, ?_⟩
  · have hstat' : r1.stat (src ++ (d ++ [f])) = .ok (.file c) := by
      rw [← List.append_assoc]; exact hstat
    have hr2' : r1.writeFile (dst ++ (d ++ [f])) c = .ok r2 := by
      rw [← List.append_assoc]; exact hr2
    simp [copyFile, filepathJoin_relString _ _ hd, filepathJoin_name _ _ hf, osMkdirAll, hr1,
      ioutilReadFile, hstat', World.log, ioutilWriteFile, hr2']
  · intro q
    show r2.kindAt q = _
    rw [hk2, hk1]

/-! ## TreeCopier: the whole loop -/

theorem prefix_append_cases {dst x q : Path} (h : q <+: dst ++ x) :
    q <+: dst ∨ ∃ q', q' ≠ [] ∧ q = dst ++ q' := by
  rcases List.prefix_or_prefix_of_prefix h (List.prefix_append dst x) with h1 | h1
  · exact Or.inl h1
  · obtain ⟨q', rfl⟩ := h1
    by_cases hq : q' = []
    · subst hq
      exact Or.inl (by simp)
    · exact Or.inr ⟨q', hq, rfl⟩

theorem no_file_near {n : Node} {dst : Path}
    (hP2 : ∀ q c, q <+: dst → n.kindAt q ≠ some (.file c))
    (hP3 : ∀ q, q ≠ [] → n.kindAt (dst ++ q) = none)
    {x q : Path} {c : List Nat} (h : q <+: dst ++ x) : n.kindAt q ≠ some (.file c) := by
  rcases prefix_append_cases h with h1 | ⟨q', hq', rfl⟩
  · exact hP2 q c h1
  · rw [hP3 q' hq']; simp

theorem file_not_below_file {n : Node} {src d' d : Path} {f' f : String} {c' c : List Nat}
    (h' : n.kindAt (src ++ d' ++ [f']) = some (.file c'))
    (h : n.kindAt (src ++ d ++ [f]) = some (.file c)) : ¬ (d' ++ [f'] <+: d) := by
  rintro ⟨r, rfl⟩
  have : src ++ (d' ++ [f'] ++ r) ++ [f] = (src ++ d' ++ [f']) ++ (r ++ [f]) := by
    simp [List.append_assoc]
  rw [this, Node.kindAt_append_of_file h' _ (by simp)] at h
  simp at h

theorem prefix_dst_iff {dst a b : Path} : dst ++ a <+: dst ++ b ↔ a <+: b :=
  List.prefix_append_right_inj dst

theorem path_file_inj {dst d0 d : Path} {f0 f : String}
    (h : dst ++ d0 ++ [f0] = dst ++ d ++ [f]) : d0 = d ∧ f0 = f := by
  rw [List.append_assoc, List.append_assoc] at h
  have h1 := List.append_cancel_left h
  have h2 := List.append_inj' h1 rfl
  exact ⟨h2.1, by simpa using h2.2⟩

theorem copyList_spec (dst src : Path) (w : World) (hwf : w.root.wf = true)
    (hdst : ∀ s ∈ dst, validName s = true)
    (hP2 : ∀ q c, q <+: dst → w.root.kindAt q ≠ some (.file c))
    (hP3 : ∀ q, q ≠ [] → w.root.kindAt (dst ++ q) = none) :
    ∀ ks : List (String × String),
      (∀ e ∈ ks, ∃ d c, e.1 = relString d ∧ (∀ s ∈ d, validName s = true) ∧
          validName e.2 = true ∧ w.root.kindAt (src ++ d ++ [e.2]) = some (.file c)) →
      ∃ w', copyList dst src ks w = (.ok (), w') ∧ w'.root.wf = true ∧
        (∀ d f, (∀ s ∈ d, validName s = true) → (relString d, f) ∈ ks →
            w'.root.kindAt (dst ++ d ++ [f]) = w.root.kindAt (src ++ d ++ [f]) ∧
            ∀ q, q <+: dst ++ d → w'.root.kindAt q = some .dir) ∧
        (∀ q, (∀ d f, (∀ s ∈ d, validName s = true) → (relString d, f) ∈ ks →
            q ≠ dst ++ d ++ [f] ∧ ¬ q <+: dst ++ d) → w'.root.kindAt q = w.root.kindAt q) := by
  intro ks
  induction ks using List.reverseRecOn with
  | nil =>
    intro _
    exact ⟨w, rfl, hwf, by simp, fun q _ => rfl⟩
  | append_singleton ks e ih =>
    intro hall
    obtain ⟨w1, hcopy1, hwf1, hA1, hB1⟩ := ih (fun e' he' => hall e' (by simp [he']))
    obtain ⟨d, c, hed, hdv, hfv, hsrc⟩ := hall e (by simp)
    have he : e = (relString d, e.2) := Prod.ext hed rfl
    -- every pair of the list names a file of the source
    have hfiles : ∀ d' f', (∀ s ∈ d', validName s = true) → (relString d', f') ∈ ks ++ [e] →
        ∃ c', w.root.kindAt (src ++ d' ++ [f']) = some (.file c') := by
      intro d' f' hd' hmem
      obtain ⟨d'', c', h1, h2, _, h4⟩ := hall _ hmem
      have : d' = d'' := relString_injective hd' h2 h1
      subst this
      exact ⟨c', h4⟩
    -- the kind of a path in `w1`, by cases
    have hcase : ∀ q,
        (∃ d' f', (∀ s ∈ d', validName s = true) ∧ (relString d', f') ∈ ks ∧
          (q = dst ++ d' ++ [f'] ∨ q <+: dst ++ d')) ∨
        w1.root.kindAt q = w.root.kindAt q := by
      intro q
      by_cases h : ∃ d' f', (∀ s ∈ d', validName s = true) ∧ (relString d', f') ∈ ks ∧
          (q = dst ++ d' ++ [f'] ∨ q <+: dst ++ d')
      · exact Or.inl h
      · right
        apply hB1
        intro d' f' hd' hmem
        constructor
        · intro hq; exact h ⟨d', f', hd', hmem, Or.inl hq⟩
        · intro hq; exact h ⟨d', f', hd', hmem, Or.inr hq⟩
    have ha : ∀ q c', q <+: dst ++ d → w1.root.kindAt q ≠ some (.file c') := by
      intro q c' hq hK
      rcases hcase q with ⟨d', f', hd', hmem, rfl | hpre⟩ | heq
      · obtain ⟨c'', hc''⟩ := hfiles d' f' hd' (by simp [hmem])
        rw [List.append_assoc, prefix_dst_iff] at hq
        exact file_not_below_file hc'' hsrc hq
      · rw [(hA1 d' f' hd' hmem).2 q hpre] at hK
        simp at hK
      · rw [heq] at hK
        exact no_file_near hP2 hP3 hq hK
    have hb : w1.root.kindAt (src ++ d ++ [e.2]) = some (.file c) := by
      rcases hcase (src ++ d ++ [e.2]) with ⟨d', f', hd', hmem, heq | hpre⟩ | heq
      · rw [heq, List.append_assoc, hP3 _ (by simp)] at hsrc
        simp at hsrc
      · exact absurd hsrc (no_file_near hP2 hP3 hpre)
      · rw [heq, hsrc]
    have hc : w1.root.kindAt (dst ++ d ++ [e.2]) ≠ some .dir := by
      rcases hcase (dst ++ d ++ [e.2]) with ⟨d', f', hd', hmem, heq | hpre⟩ | heq
      · obtain ⟨c'', hc''⟩ := hfiles d' f' hd' (by simp [hmem])
        rw [heq, (hA1 d' f' hd' hmem).1, hc'']
        simp
      · obtain ⟨c'', hc''⟩ := hfiles d' f' hd' (by simp [hmem])
        rw [List.append_assoc, prefix_dst_iff] at hpre
        exact absurd hpre (file_not_below_file hsrc hc'')
      · rw [heq, List.append_assoc, hP3 _ (by simp)]
        simp
    obtain ⟨w2, hcopy2, hwf2, -, hK2⟩ :=
      copyFile_ok dst src d e.2 w1 c hwf1 hdst hdv hfv ha hb hc
    have hmemcases : ∀ d0 f0, (∀ s ∈ d0, validName s = true) →
        (relString d0, f0) ∈ ks ++ [e] → (relString d0, f0) ∈ ks ∨ (d0 = d ∧ f0 = e.2) := by
      intro d0 f0 hd0 hmem
      rcases List.mem_append.1 hmem with h | h
      · exact Or.inl h
      · right
        simp only [List.mem_singleton] at h
        rw [he] at h
        simp only [Prod.mk.injEq] at h
        exact ⟨relString_injective hd0 hdv h.1, h.2⟩
    refine ⟨w2, ?_, hwf2, ?_, ?_⟩
    · rw [copyList_append, hcopy1]
      simp only
      rw [he]
      simp only [copyList, hcopy2]
    · intro d0 f0 hd0 hmem
      obtain ⟨c0, hc0⟩ := hfiles d0 f0 hd0 hmem
      constructor
      · rw [hK2]
        by_cases h1 : dst ++ d0 ++ [f0] = dst ++ d ++ [e.2]
        · obtain ⟨rfl, rfl⟩ := path_file_inj h1
          rw [if_pos rfl, hsrc]
        · rw [if_neg h1]
          by_cases h2 : dst ++ d0 ++ [f0] <+: dst ++ d
          · rw [List.append_assoc, prefix_dst_iff] at h2
            exact absurd h2 (file_not_below_file hc0 hsrc)
          · rw [if_neg h2]
            rcases hmemcases d0 f0 hd0 hmem with h | ⟨rfl, rfl⟩
            · exact (hA1 d0 f0 hd0 h).1
            · exact absurd rfl h1
      · intro q hq
        rw [hK2]
        by_cases h1 : q = dst ++ d ++ [e.2]
        · subst h1
          rw [List.append_assoc, prefix_dst_iff] at hq
          exact absurd hq (file_not_below_file hsrc hc0)
        · rw [if_neg h1]
          by_cases h2 : q <+: dst ++ d
          · rw [if_pos h2]
          · rw [if_neg h2]
            rcases hmemcases d0 f0 hd0 hmem with h | ⟨rfl, rfl⟩
            · exact (hA1 d0 f0 hd0 h).2 q hq
            · exact absurd hq h2
    · intro q hq
      have hqe := hq d e.2 hdv (by rw [← he]; simp)
      rw [hK2, if_neg hqe.1, if_neg hqe.2]
      exact hB1 q (fun d' f' hd' hmem => hq d' f' hd' (by simp [hmem]))

/-! ## Copying the tree `readTree` returns -/

theorem Node.valid_of_file {n : Node} {root d : Path} {f : String} {c : List Nat}
    (hwf : n.wf = true) (h : n.kindAt (root ++ d ++ [f]) = some (.file c)) :
    (∀ s ∈ d, validName s = true) ∧ validName f = true := by
  have h1 := (Node.wf_get? _ _ _ hwf (Node.get?_of_kindAt_file h)).1
  exact ⟨fun s hs => h1 s (by simp [hs]), h1 f (by simp)⟩

theorem Node.get?_of_kindAt_dir {n : Node} {p : Path} (h : n.kindAt p = some .dir) :
    ∃ es, n.get? p = some (.dir es) := by
  unfold Node.kindAt at h
  cases hg : n.get? p with
  | none => rw [hg] at h; simp at h
  | some m =>
    rw [hg] at h
    cases m with
    | dir es => exact ⟨es, rfl⟩
    | file c' => simp [Node.kind] at h

theorem mem_pairs_iff_recorded (dir : Path) (skip : List String) (w : World)
    (es : List (String × Node)) (hwf : w.root.wf = true)
    (hdir : w.root.get? dir = some (.dir es)) (d : Path) (f : String)
    (hd : ∀ s ∈ d, validName s = true) :
    (relString d, f) ∈ treePairs (recordAll [] (filesOfEntries skip [] es)) ↔
      Recorded w.root dir skip d f := by
  rw [mem_readTree_pairs dir skip w es hwf hdir]
  constructor
  · rintro ⟨d', c, hrel, hskip, hfile, hne⟩
    have hv := Node.valid_of_file hwf ((Node.fileAt_eq _ _ _).1 hfile)
    have : d = d' := relString_injective hd hv.1 hrel
    subst this
    exact ⟨hskip, ⟨c, (Node.fileAt_eq _ _ _).1 hfile⟩, hne⟩
  · rintro ⟨hskip, ⟨c, hfile⟩, hne⟩
    exact ⟨d, c, rfl, hskip, (Node.fileAt_eq _ _ _).2 hfile, hne⟩

theorem treeCopy_spec (src dst : Path) (skip : List String) (w : World)
    (es : List (String × Node)) (hwf : w.root.wf = true)
    (hsrc : w.root.get? src = some (.dir es))
    (hdst : ∀ s ∈ dst, validName s = true)
    (hP2 : ∀ q c, q <+: dst → w.root.kindAt q ≠ some (.file c))
    (hP3 : ∀ q, q ≠ [] → w.root.kindAt (dst ++ q) = none) :
    ∃ w', copyTree (recordAll [] (filesOfEntries skip [] es)) dst src w = (.ok (), w') ∧
      w'.root.wf = true ∧
      (∀ d f, Recorded w.root src skip d f →
          w'.root.kindAt (dst ++ d ++ [f]) = w.root.kindAt (src ++ d ++ [f]) ∧
          ∀ q, q <+: dst ++ d → w'.root.kindAt q = some .dir) ∧
      (∀ q, (∀ d f, Recorded w.root src skip d f →
          q ≠ dst ++ d ++ [f] ∧ ¬ q <+: dst ++ d) → w'.root.kindAt q = w.root.kindAt q) := by
  have hall : ∀ e ∈ treePairs (recordAll [] (filesOfEntries skip [] es)),
      ∃ d c, e.1 = relString d ∧ (∀ s ∈ d, validName s = true) ∧
        validName e.2 = true ∧ w.root.kindAt (src ++ d ++ [e.2]) = some (.file c) := by
    rintro ⟨key, f⟩ he
    obtain ⟨d, c, hrel, -, hfile, -⟩ := (mem_readTree_pairs src skip w es hwf hsrc key f).1 he
    have hk := (Node.fileAt_eq _ _ _).1 hfile
    have hv := Node.valid_of_file hwf hk
    exact ⟨d, c, hrel, hv.1, hv.2, hk⟩
  obtain ⟨w', hcopy, hwf', hA, hB⟩ := copyList_spec dst src w hwf hdst hP2 hP3 _ hall
  refine ⟨w', by rw [copyTree_eq_copyList, hcopy], hwf', ?_, ?_⟩
  · intro d f hrec
    obtain ⟨c, hc⟩ := hrec.2.1
    have hv := Node.valid_of_file hwf hc
    exact hA d f hv.1 ((mem_pairs_iff_recorded src skip w es hwf hsrc d f hv.1).2 hrec)
  · intro q hq
    apply hB
    intro d f hd hmem
    exact hq d f ((mem_pairs_iff_recorded src skip w es hwf hsrc d f hd).1 hmem)

/-! ## `createStash` and `expandStash` as a walk followed by a copy -/

set_option maxRecDepth 100000 in
theorem validName_sprintf02X : ∀ b, b < 256 → validName (sprintf02X b) = true := by
  decide

theorem validName_of_validateName {s : String} (h : validateName s = true) :
    validName s = true := by
  obtain ⟨hne, hall⟩ := (validateName_iff s).1 h
  rw [validName_iff]
  refine ⟨hne, ?_, ?_, ?_⟩
  · rintro rfl
    exact absurd (hall '.' (by decide)) (by decide)
  · rintro rfl
    exact absurd (hall '.' (by decide)) (by decide)
  · intro hmem
    exact absurd (hall '/' hmem) (by decide)

theorem storagePath_eq (L : GoLib) (stashName : String) (fstashHome : Path)
    (hname : validateName (polishStashName L stashName) = true) :
    storagePath L stashName fstashHome
      = fstashHome ++
          ((hash (polishStashName L stashName)).map sprintf02X ++ [polishStashName L stashName]) := by
  unfold storagePath
  simp only
  rw [filepathJoin_names]
  intro s hs
  rcases List.mem_append.1 hs with h | h
  · obtain ⟨b, hb, rfl⟩ := List.mem_map.1 h
    exact validName_sprintf02X b (hash_lt _ b hb)
  · simp only [List.mem_singleton] at h
    subst h
    exact validName_of_validateName hname

theorem storagePath_valid (L : GoLib) (stashName : String) (fstashHome : Path)
    (hname : validateName (polishStashName L stashName) = true)
    (hhome : ∀ s ∈ fstashHome, validName s = true) :
    ∀ s ∈ storagePath L stashName fstashHome, validName s = true := by
  rw [storagePath_eq L stashName fstashHome hname]
  intro s hs
  rcases List.mem_append.1 hs with h | h
  · exact hhome s h
  · rcases List.mem_append.1 h with h | h
    · obtain ⟨b, hb, rfl⟩ := List.mem_map.1 h
      exact validName_sprintf02X b (hash_lt _ b hb)
    · simp only [List.mem_singleton] at h
      subst h
      exact validName_of_validateName hname

theorem createStash_eq (L : GoLib) (stashName : String) (stashTree fstashHome : Path) (w : World)
    (es : List (String × Node)) (hname : validateName (polishStashName L stashName) = true)
    (hwf : w.root.wf = true) (hdir : w.root.get? stashTree = some (.dir es))
    (hbase : [".git"].contains (pathBase stashTree) = false) :
    createStash L stashName stashTree fstashHome w
      = copyTree (recordAll [] (filesOfEntries [".git"] [] es))
          (storagePath L stashName fstashHome) stashTree
          ((w.log (.stat stashTree)).log (.walk stashTree)) := by
  unfold createStash storagePath
  simp only [hname, Bool.not_true, Bool.false_eq_true, if_false]
  rw [readTree_eq stashTree [".git"] w es hwf hdir hbase]
  simp only [hashParts_hash]

theorem expandStash_core (dir workingDirectory : Path) (L : GoLib) (w : World)
    (es : List (String × Node)) (hwf : w.root.wf = true)
    (hdir : w.root.get? dir = some (.dir es)) :
    (match osStat dir w with
      | (.error e, w) =>
        if osIsNotExist e then (Except.error Err.stashNotExist, w) else (.error e, w)
      | (.ok _, w) =>
        match readTree dir [] w with
        | (.error e, w) => (.error e, w)
        | (.ok tree, w) =>
          if ([] : List (String × String)).length = 0 then copyTree tree workingDirectory dir w
          else expandTree L tree workingDirectory dir [] w)
      = copyTree (recordAll [] (filesOfEntries [] [] es)) workingDirectory dir
          (((w.log (.stat dir)).log (.stat dir)).log (.walk dir)) := by
  have hread := readTree_eq dir [] (w.log (.stat dir)) es hwf hdir rfl
  simp only [osStat, Node.stat_eq_ok _ _ _ hdir, hread, List.length_nil, if_true]

theorem expandStash_eq (L : GoLib) (stashName : String) (fstashHome workingDirectory : Path)
    (w : World) (es : List (String × Node)) (hwf : w.root.wf = true)
    (hdir : w.root.get? (storagePath L stashName fstashHome) = some (.dir es)) :
    expandStash L stashName fstashHome workingDirectory [] w
      = copyTree (recordAll [] (filesOfEntries [] [] es)) workingDirectory
          (storagePath L stashName fstashHome)
          (((w.log (.stat (storagePath L stashName fstashHome))).log
            (.stat (storagePath L stashName fstashHome))).log
            (.walk (storagePath L stashName fstashHome))) := by
  rw [← expandStash_core (storagePath L stashName fstashHome) workingDirectory L w es hwf hdir]
  unfold expandStash storagePath
  simp only [hashParts_hash]

theorem createStash_invalid_aux (L : GoLib) (stashName : String) (stashTree fstashHome : Path)
    (w : World) (h : validateName (polishStashName L stashName) = false) :
    createStash L stashName stashTree fstashHome w = (.error .invalidStashName, w) := by
  simp [createStash, h]

/-! ## The keys of the tree `readTree` returns -/

theorem mem_treeKeys_of_pairs {key f : String} : ∀ {tree : Tree},
    (key, f) ∈ treePairs tree → key ∈ treeKeys tree := by
  intro tree h
  simp only [treePairs, List.mem_flatMap, List.mem_map, Prod.mk.injEq] at h
  obtain ⟨e, he, f', -, h1, -⟩ := h
  exact List.mem_map.2 ⟨e, he, h1⟩

theorem mem_tree_pairs {key f : String} {files : List String} {tree : Tree}
    (h : (key, files) ∈ tree) (hf : f ∈ files) : (key, f) ∈ treePairs tree := by
  simp only [treePairs, List.mem_flatMap, List.mem_map, Prod.mk.injEq]
  exact ⟨(key, files), h, f, hf, rfl, rfl⟩

theorem treeAppend_nonempty (d r : String) : ∀ tree : Tree,
    (∀ e ∈ tree, e.2 ≠ []) → ∀ e ∈ treeAppend tree d r, e.2 ≠ []
  | [], _, e, he => by
    simp only [treeAppend, List.mem_singleton] at he
    subst he
    simp
  | (k, v) :: rest, h, e, he => by
    unfold treeAppend at he
    by_cases hk : k = d
    · rw [if_pos hk] at he
      rcases List.mem_cons.1 he with rfl | he
      · simp
      · exact h e (List.mem_cons_of_mem _ he)
    · rw [if_neg hk] at he
      rcases List.mem_cons.1 he with rfl | he
      · exact h _ (List.mem_cons_self _ _)
      · exact treeAppend_nonempty d r rest (fun e' he' => h e' (List.mem_cons_of_mem _ he')) e he

theorem recordAll_nonempty : ∀ (ps : List (Path × String)) (tree : Tree),
    (∀ e ∈ tree, e.2 ≠ []) → ∀ e ∈ recordAll tree ps, e.2 ≠ []
  | [], tree, h => h
  | p :: ps, tree, h => by
    have hunfold : recordAll tree (p :: ps)
        = recordAll (readTreeRecord tree (relString p.1) p.2).2 ps := rfl
    rw [hunfold]
    apply recordAll_nonempty ps
    unfold readTreeRecord
    by_cases hp : relString p.1 = p.2
    · rw [if_pos hp]; exact h
    · rw [if_neg hp]; exact treeAppend_nonempty _ _ tree h

theorem mem_treeKeys_iff_pairs {tree : Tree} (h : ∀ e ∈ tree, e.2 ≠ []) (key : String) :
    key ∈ treeKeys tree ↔ ∃ f, (key, f) ∈ treePairs tree := by
  constructor
  · intro hk
    obtain ⟨⟨k, files⟩, he, rfl⟩ := List.mem_map.1 hk
    obtain ⟨f, hf⟩ := List.exists_mem_of_ne_nil files (h _ he)
    exact ⟨f, mem_tree_pairs he hf⟩
  · rintro ⟨f, hf⟩
    exact mem_treeKeys_of_pairs hf

theorem readTree_skipped (dir : Path) (skip : List String) (w : World)
    (es : List (String × Node)) (hdir : w.root.get? dir = some (.dir es))
    (hskip : skip.contains (pathBase dir) = true) :
    readTree dir skip w = (.ok [], (w.log (.stat dir)).log (.walk dir)) := by
  simp only [readTree, osStat, Node.stat_eq_ok dir _ _ hdir, filepathWalk, World.log_root, hdir,
    walkNode, readTreeFn, hskip, Bool.not_true, Bool.false_eq_true, if_false, if_true]

theorem relString_ne_iff {d : Path} {f : String} (hd : ∀ s ∈ d, validName s = true)
    (hf : validName f = true) : relString d ≠ f ↔ d ≠ [f] := by
  constructor
  · rintro h rfl
    exact h (by rw [relString_of_ne_nil (by simp), joinSlash_singleton])
  · intro h heq
    exact h (relString_eq_name hd hf heq)


/-! ## The calls `copyTree` makes -/

theorem copyFile_trace (dst src : Path) (path f : String) (w : World) :
    ∀ call ∈ (copyFile dst src path f w).2.trace, call ∈ w.trace ∨
      call = .mkdirAll (filepathJoin dst [path]) ∨
      call = .readFile (filepathJoin (filepathJoin src [path]) [f]) ∨
      ∃ c, call = .writeFile (filepathJoin (filepathJoin dst [path]) [f]) c := by
  intro call
  simp only [copyFile, osMkdirAll, ioutilReadFile, ioutilWriteFile, World.log]
  cases w.root.mkdirAll (filepathJoin dst [path]) with
  | error e =>
    simp only [List.mem_append, List.mem_singleton]
    tauto
  | ok r1 =>
    simp only
    cases r1.stat (filepathJoin (filepathJoin src [path]) [f]) with
    | error e =>
      simp only [List.mem_append, List.mem_singleton]
      tauto
    | ok m =>
      cases m with
      | dir es' =>
        simp only [List.mem_append, List.mem_singleton]
        tauto
      | file content =>
        simp only
        cases r1.writeFile (filepathJoin (filepathJoin dst [path]) [f]) content with
        | error e =>
          simp only [List.mem_append, List.mem_singleton]
          intro h
          rcases h with ((h | h) | h) | h
          · exact Or.inl h
          · exact Or.inr (Or.inl h)
          · exact Or.inr (Or.inr (Or.inl h))
          · exact Or.inr (Or.inr (Or.inr ⟨content, h⟩))
        | ok r2 =>
          simp only [List.mem_append, List.mem_singleton]
          intro h
          rcases h with ((h | h) | h) | h
          · exact Or.inl h
          · exact Or.inr (Or.inl h)
          · exact Or.inr (Or.inr (Or.inl h))
          · exact Or.inr (Or.inr (Or.inr ⟨content, h⟩))

theorem copyList_trace (dst src : Path) : ∀ (ks : List (String × String)) (w : World),
    ∀ call ∈ (copyList dst src ks w).2.trace, call ∈ w.trace ∨
      ∃ e ∈ ks, call = .mkdirAll (filepathJoin dst [e.1]) ∨
        call = .readFile (filepathJoin (filepathJoin src [e.1]) [e.2]) ∨
        ∃ c, call = .writeFile (filepathJoin (filepathJoin dst [e.1]) [e.2]) c
  | [], w, call, h => Or.inl h
  | (path, f) :: ks, w, call, h => by
    have h1 := copyFile_trace dst src path f w
    simp only [copyList] at h
    cases hc : copyFile dst src path f w with
    | mk r w' =>
      rw [hc] at h h1
      cases r with
      | error e =>
        rcases h1 call h with h2 | h2
        · exact Or.inl h2
        · exact Or.inr ⟨(path, f), by simp, h2⟩
      | ok u =>
        rcases copyList_trace dst src ks w' call h with h2 | ⟨e, he, h2⟩
        · rcases h1 call h2 with h3 | h3
          · exact Or.inl h3
          · exact Or.inr ⟨(path, f), by simp, h3⟩
        · exact Or.inr ⟨e, by simp [he], h2⟩

theorem createStash_trace_aux (L : GoLib) (stashName : String) (stashTree fstashHome : Path)
    (w : World) (hwf : w.root.wf = true) (hroot : w.root.dirAt stashTree = true) :
    ∀ call ∈ (createStash L stashName stashTree fstashHome w).2.trace,
      call ∈ w.trace ∨ call = .stat stashTree ∨ call = .walk stashTree ∨
      ∃ d f, ".git" ∉ d ∧ (w.root.fileAt (stashTree ++ d ++ [f])).isSome = true ∧
        (call = .mkdirAll (storagePath L stashName fstashHome ++ d) ∨
          call = .readFile (stashTree ++ d ++ [f]) ∨
          ∃ c, call = .writeFile (storagePath L stashName fstashHome ++ d ++ [f]) c) := by
  intro call hcall
  obtain ⟨es, hes⟩ := Node.get?_of_kindAt_dir ((Node.dirAt_eq _ _).1 hroot)
  by_cases hname : validateName (polishStashName L stashName) = true
  · by_cases hbase : [".git"].contains (pathBase stashTree) = true
    · have hread := readTree_skipped stashTree [".git"] w es hes hbase
      have : (createStash L stashName stashTree fstashHome w).2.trace
          = w.trace ++ [.stat stashTree] ++ [.walk stashTree] := by
        unfold createStash
        simp only [hname, Bool.not_true, Bool.false_eq_true, if_false]
        rw [hread]
        simp only [hashParts_hash, copyTree, World.log]
      rw [this] at hcall
      simp only [List.mem_append, List.mem_singleton] at hcall
      tauto
    · have hbase' : [".git"].contains (pathBase stashTree) = false := by
        simpa using hbase
      rw [createStash_eq L stashName stashTree fstashHome w es hname hwf hes hbase',
        copyTree_eq_copyList] at hcall
      rcases copyList_trace _ _ _ _ call hcall with h | ⟨⟨key, f⟩, he, h⟩
      · simp only [World.log, List.mem_append, List.mem_singleton] at h
        tauto
      · obtain ⟨d, c, hrel, hfree, hfile, -⟩ :=
          (mem_readTree_pairs stashTree [".git"] w es hwf hes key f).1 he
        have hv := Node.valid_of_file hwf ((Node.fileAt_eq _ _ _).1 hfile)
        subst hrel
        simp only [filepathJoin_relString _ _ hv.1, filepathJoin_name _ _ hv.2] at h
        refine Or.inr (Or.inr (Or.inr ⟨d, f, fun hg => hfree _ hg (by simp), ?_, h⟩))
        rw [hfile]
        rfl
  · have hname' : validateName (polishStashName L stashName) = false := by
      simpa using hname
    rw [createStash_invalid_aux L stashName stashTree fstashHome w hname'] at hcall
    exact Or.inl hcall

/-! ## Round trip: `createStash` followed by `expandStash` -/

theorem Node.kindAt_of_holdsNothing {n : Node} {p : Path} (h : n.holdsNothing p = true)
    (q : Path) (hq : q ≠ []) : n.kindAt (p ++ q) = none := by
  unfold Node.holdsNothing at h
  unfold Node.kindAt
  rw [Node.get?_append]
  cases hg : n.get? p with
  | none => rfl
  | some m =>
    rw [hg] at h
    cases m with
    | file c => simp at h
    | dir es =>
      cases es with
      | cons e es => simp at h
      | nil =>
        cases q with
        | nil => exact absurd rfl hq
        | cons s q => simp [Node.get?_dir_cons]

theorem copy_cases {n n' : Node} {src dst : Path} {skip : List String}
    (hB : ∀ q, (∀ d f, Recorded n src skip d f →
        q ≠ dst ++ d ++ [f] ∧ ¬ q <+: dst ++ d) → n'.kindAt q = n.kindAt q) (q : Path) :
    (∃ d f, Recorded n src skip d f ∧ (q = dst ++ d ++ [f] ∨ q <+: dst ++ d)) ∨
    ((∀ d f, Recorded n src skip d f → q ≠ dst ++ d ++ [f] ∧ ¬ q <+: dst ++ d) ∧
      n'.kindAt q = n.kindAt q) := by
  by_cases h : ∃ d f, Recorded n src skip d f ∧ (q = dst ++ d ++ [f] ∨ q <+: dst ++ d)
  · exact Or.inl h
  · right
    have h' : ∀ d f, Recorded n src skip d f → q ≠ dst ++ d ++ [f] ∧ ¬ q <+: dst ++ d := by
      intro d f hrec
      exact ⟨fun hq => h ⟨d, f, hrec, Or.inl hq⟩, fun hq => h ⟨d, f, hrec, Or.inr hq⟩⟩
    exact ⟨h', hB q h'⟩

theorem prefix_comparable {a b x y : Path} (h : a ++ x <+: b ++ y) : a <+: b ∨ b <+: a :=
  List.prefix_or_prefix_of_prefix ((List.prefix_append a x).trans h) (List.prefix_append b y)

theorem roundTrip_aux (L : GoLib) (stashName : String)
    (stashTree fstashHome workingDirectory : Path) (w : World)
    (hwf : w.root.wf = true)
    (hname : validateName (polishStashName L stashName) = true)
    (hsrc : w.root.dirAt stashTree = true) (hbase : pathBase stashTree ≠ ".git")
    (hhome : ∀ s ∈ fstashHome, validName s = true)
    (hwork : ∀ s ∈ workingDirectory, validName s = true)
    (hstore : w.root.holdsNothing (storagePath L stashName fstashHome) = true)
    (hstorepre : ∀ q, q <+: storagePath L stashName fstashHome → w.root.fileAt q = none)
    (hdest : w.root.holdsNothing workingDirectory = true)
    (hdestpre : ∀ q, q <+: workingDirectory → w.root.fileAt q = none)
    (hdisj : ¬ storagePath L stashName fstashHome <+: workingDirectory ∧
      ¬ workingDirectory <+: storagePath L stashName fstashHome)
    (hfile : ∃ d f, ".git" ∉ d ∧ (w.root.fileAt (stashTree ++ d ++ [f])).isSome = true)
    (hslip : ∀ f, w.root.fileAt (stashTree ++ [f, f]) = none) :
    ∃ w1 w2, createStash L stashName stashTree fstashHome w = (.ok (), w1) ∧
      expandStash L stashName fstashHome workingDirectory [] w1 = (.ok (), w2) ∧
      (∀ q, w2.root.fileAt (workingDirectory ++ q) =
        if ".git" ∈ q.dropLast then none else w.root.fileAt (stashTree ++ q)) ∧
      (∀ q, w2.root.dirAt (workingDirectory ++ q) = true ↔
        ∃ d f, ".git" ∉ d ∧ q <+: d ∧ (w.root.fileAt (stashTree ++ d ++ [f])).isSome = true) := by
  -- the source directory
  have hsrcK : w.root.kindAt stashTree = some .dir := (Node.dirAt_eq _ _).1 hsrc
  obtain ⟨es, hes⟩ := Node.get?_of_kindAt_dir hsrcK
  have hbase' : [".git"].contains (pathBase stashTree) = false := by
    simpa using hbase
  -- the files the walk of the source records
  have hrec0 : ∀ d f, Recorded w.root stashTree [".git"] d f ↔
      ".git" ∉ d ∧ (w.root.fileAt (stashTree ++ d ++ [f])).isSome = true := by
    intro d f
    constructor
    · rintro ⟨h1, ⟨c, h2⟩, -⟩
      refine ⟨fun h => h1 _ h (by simp), ?_⟩
      rw [(Node.fileAt_eq _ _ _).2 h2]
      rfl
    · rintro ⟨h1, h2⟩
      obtain ⟨c, hc⟩ := Option.isSome_iff_exists.1 h2
      have hk := (Node.fileAt_eq _ _ _).1 hc
      have hv := Node.valid_of_file hwf hk
      refine ⟨?_, ⟨c, hk⟩, ?_⟩
      · intro s hs hmem
        simp only [List.mem_singleton] at hmem
        subst hmem
        exact h1 hs
      · intro heq
        have := relString_eq_name hv.1 hv.2 heq
        subst this
        have := hslip f
        rw [show stashTree ++ [f] ++ [f] = stashTree ++ [f, f] by simp, this] at hc
        simp at hc
  obtain ⟨d0, f0, hd0, hf0⟩ := hfile
  have hrec00 := (hrec0 d0 f0).2 ⟨hd0, hf0⟩
  -- createStash
  have hspv := storagePath_valid L stashName fstashHome hname hhome
  have hP2 : ∀ q c, q <+: storagePath L stashName fstashHome →
      w.root.kindAt q ≠ some (.file c) := by
    intro q c hq
    exact (Node.fileAt_eq_none _ _).1 (hstorepre q hq) c
  have hP3 := Node.kindAt_of_holdsNothing hstore
  obtain ⟨w1, hcopy1, hwf1, hA1, hB1⟩ := treeCopy_spec stashTree
    (storagePath L stashName fstashHome) [".git"]
    ((w.log (.stat stashTree)).log (.walk stashTree)) es hwf hes hspv hP2 hP3
  have hA1' : ∀ d f, Recorded w.root stashTree [".git"] d f →
      w1.root.kindAt (storagePath L stashName fstashHome ++ d ++ [f])
        = w.root.kindAt (stashTree ++ d ++ [f]) ∧
      ∀ q, q <+: storagePath L stashName fstashHome ++ d → w1.root.kindAt q = some .dir := hA1
  have hB1' : ∀ q, (∀ d f, Recorded w.root stashTree [".git"] d f →
      q ≠ storagePath L stashName fstashHome ++ d ++ [f] ∧
        ¬ q <+: storagePath L stashName fstashHome ++ d) →
      w1.root.kindAt q = w.root.kindAt q := hB1
  have hcreate : createStash L stashName stashTree fstashHome w = (.ok (), w1) := by
    rw [createStash_eq L stashName stashTree fstashHome w es hname hwf hes hbase', hcopy1]
  -- the stash directory after createStash
  have hspdir : w1.root.kindAt (storagePath L stashName fstashHome) = some .dir :=
    (hA1' d0 f0 hrec00).2 _ (List.prefix_append _ _)
  obtain ⟨es1, hes1⟩ := Node.get?_of_kindAt_dir hspdir
  have hrec1 : ∀ d f, Recorded w1.root (storagePath L stashName fstashHome) [] d f ↔
      Recorded w.root stashTree [".git"] d f := by
    intro d f
    constructor
    · rintro ⟨-, ⟨c, hc⟩, hne⟩
      rcases copy_cases hB1' (storagePath L stashName fstashHome ++ d ++ [f]) with
        ⟨d', f', hrec', heq | hpre⟩ | ⟨-, heq⟩
      · obtain ⟨rfl, rfl⟩ := path_file_inj heq
        exact hrec'
      · rw [(hA1' d' f' hrec').2 _ hpre] at hc
        simp at hc
      · rw [heq, List.append_assoc, hP3 _ (by simp)] at hc
        simp at hc
    · intro hrec
      obtain ⟨c, hc⟩ := hrec.2.1
      exact ⟨by simp, ⟨c, by rw [(hA1' d f hrec).1, hc]⟩, hrec.2.2⟩
  -- expandStash
  have hP2' : ∀ q c, q <+: workingDirectory → w1.root.kindAt q ≠ some (.file c) := by
    intro q c hq hK
    rcases copy_cases hB1' q with ⟨d', f', hrec', heq | hpre⟩ | ⟨-, heq⟩
    · subst heq
      rw [List.append_assoc] at hq
      exact hdisj.1 ((List.prefix_append _ _).trans hq)
    · rw [(hA1' d' f' hrec').2 _ hpre] at hK
      simp at hK
    · rw [heq] at hK
      exact (Node.fileAt_eq_none _ _).1 (hdestpre q hq) c hK
  have hP3' : ∀ q, q ≠ [] → w1.root.kindAt (workingDirectory ++ q) = none := by
    intro q hq
    rcases copy_cases hB1' (workingDirectory ++ q) with ⟨d', f', hrec', heq | hpre⟩ | ⟨-, heq⟩
    · rw [List.append_assoc] at heq
      rcases prefix_comparable (heq ▸ List.prefix_refl _ :
        workingDirectory ++ q <+: storagePath L stashName fstashHome ++ (d' ++ [f'])) with h | h
      · exact absurd h hdisj.2
      · exact absurd h hdisj.1
    · rcases prefix_comparable hpre with h | h
      · exact absurd h hdisj.2
      · exact absurd h hdisj.1
    · rw [heq]
      exact Node.kindAt_of_holdsNothing hdest q hq
  obtain ⟨w2, hcopy2, -, hA2, hB2⟩ := treeCopy_spec (storagePath L stashName fstashHome)
    workingDirectory []
    (((w1.log (.stat (storagePath L stashName fstashHome))).log
      (.stat (storagePath L stashName fstashHome))).log
      (.walk (storagePath L stashName fstashHome))) es1 hwf1 hes1 hwork hP2' hP3'
  have hA2' : ∀ d f, Recorded w1.root (storagePath L stashName fstashHome) [] d f →
      w2.root.kindAt (workingDirectory ++ d ++ [f])
        = w1.root.kindAt (storagePath L stashName fstashHome ++ d ++ [f]) ∧
      ∀ q, q <+: workingDirectory ++ d → w2.root.kindAt q = some .dir := hA2
  have hB2' : ∀ q, (∀ d f, Recorded w1.root (storagePath L stashName fstashHome) [] d f →
      q ≠ workingDirectory ++ d ++ [f] ∧ ¬ q <+: workingDirectory ++ d) →
      w2.root.kindAt q = w1.root.kindAt q := hB2
  have hexpand : expandStash L stashName fstashHome workingDirectory [] w1 = (.ok (), w2) := by
    rw [expandStash_eq L stashName fstashHome workingDirectory w1 es1 hwf1 hes1, hcopy2]
  refine ⟨w1, w2, hcreate, hexpand, ?_, ?_⟩
  · -- the files of the destination
    intro q
    rcases copy_cases hB2' (workingDirectory ++ q) with ⟨d, f, hrec, heq | hpre⟩ | ⟨hnone, heq⟩
    · have hq : q = d ++ [f] := by
        rw [List.append_assoc] at heq
        exact List.append_cancel_left heq
      subst hq
      have hr0 := (hrec1 d f).1 hrec
      obtain ⟨c, hc⟩ := hr0.2.1
      have hgit : ".git" ∉ d := ((hrec0 d f).1 hr0).1
      have h2 : w2.root.kindAt (workingDirectory ++ (d ++ [f])) = some (.file c) := by
        rw [← List.append_assoc, (hA2' d f hrec).1, (hA1' d f hr0).1, hc]
      rw [(Node.fileAt_eq _ _ _).2 h2, List.dropLast_concat, if_neg hgit,
        ← List.append_assoc, (Node.fileAt_eq _ _ _).2 hc]
    · have h2 := (hA2' d f hrec).2 _ hpre
      have hr0 := (hrec1 d f).1 hrec
      obtain ⟨c, hc⟩ := hr0.2.1
      obtain ⟨r, hr⟩ := prefix_dst_iff.1 hpre
      have hT : w.root.kindAt (stashTree ++ q) = some .dir := by
        apply Node.kindAt_prefix_of_some (q := r ++ [f]) (k := .file c) _ (by simp)
        rw [← hc, ← hr]
        simp [List.append_assoc]
      have e1 : w2.root.fileAt (workingDirectory ++ q) = none := by
        rw [Node.fileAt_eq_none]
        intro c'
        rw [h2]
        simp
      have e2 : w.root.fileAt (stashTree ++ q) = none := by
        rw [Node.fileAt_eq_none]
        intro c'
        rw [hT]
        simp
      rw [e1, e2]
      simp
    · have e1 : w2.root.fileAt (workingDirectory ++ q) = none := by
        rw [Node.fileAt_eq_none, heq]
        intro c'
        by_cases hq : q = []
        · subst hq
          exact hP2' _ c' (by simp)
        · rw [hP3' q hq]
          simp
      rw [e1]
      by_cases hgit : ".git" ∈ q.dropLast
      · rw [if_pos hgit]
      · rw [if_neg hgit]
        symm
        rw [Node.fileAt_eq_none]
        intro c hc
        have hqne : q ≠ [] := by
          rintro rfl
          rw [List.append_nil, hsrcK] at hc
          simp at hc
        have hq : q = q.dropLast ++ [q.getLast hqne] := (List.dropLast_append_getLast hqne).symm
        have hrec : Recorded w.root stashTree [".git"] q.dropLast (q.getLast hqne) := by
          rw [hrec0]
          refine ⟨hgit, ?_⟩
          rw [List.append_assoc, ← hq, (Node.fileAt_eq _ _ _).2 hc]
          rfl
        have := (hnone _ _ ((hrec1 _ _).2 hrec)).1
        rw [List.append_assoc, ← hq] at this
        exact this rfl
  · -- the directories of the destination
    intro q
    rw [Node.dirAt_eq]
    constructor
    · intro hK
      rcases copy_cases hB2' (workingDirectory ++ q) with ⟨d, f, hrec, heq | hpre⟩ | ⟨hnone, heq⟩
      · have hr0 := (hrec1 d f).1 hrec
        obtain ⟨c, hc⟩ := hr0.2.1
        rw [heq, (hA2' d f hrec).1, (hA1' d f hr0).1, hc] at hK
        simp at hK
      · have hr0 := (hrec1 d f).1 hrec
        exact ⟨d, f, ((hrec0 d f).1 hr0).1, prefix_dst_iff.1 hpre, ((hrec0 d f).1 hr0).2⟩
      · by_cases hq : q = []
        · subst hq
          have := (hnone d0 f0 ((hrec1 _ _).2 hrec00)).2
          exact absurd (by simp) this
        · rw [heq, hP3' q hq] at hK
          simp at hK
    · rintro ⟨d, f, hgit, hpre, hfile⟩
      have hr0 := (hrec0 d f).2 ⟨hgit, hfile⟩
      exact (hA2' d f ((hrec1 d f).2 hr0)).2 _ (prefix_dst_iff.2 hpre)

/-! ## The claims about `readTree`, `createStash` and `expandStash` -/

/-- C9 (amended): for a directory beneath the root of the walk (or the root
itself, whose key is `.`) that is not pruned, the tree `readTree` returns has
the directory's relative path as a key when the directory directly contains a
file whose name is not the whole relative path of the directory; a directory
that directly contains no file has no key. -/
theorem readTree_directory_keys (dir : Path) (skip : List String) (w : World) (d : Path)
    (hwf : w.root.wf = true) (hroot : w.root.dirAt dir = true)
    (hskip : skip.contains (pathBase dir) = false)
    (hd : w.root.dirAt (dir ++ d) = true) :
    ∃ tree, (readTree dir skip w).1 = .ok tree ∧
      ((∀ s ∈ d, s ∉ skip) →
        (∃ f c, w.root.fileAt (dir ++ d ++ [f]) = some c ∧ d ≠ [f]) →
          relString d ∈ treeKeys tree) ∧
      ((∀ f, w.root.fileAt (dir ++ d ++ [f]) = none) → relString d ∉ treeKeys tree) := by
  obtain ⟨es, hes⟩ := Node.get?_of_kindAt_dir ((Node.dirAt_eq _ _).1 hroot)
  obtain ⟨esd, hesd⟩ := Node.get?_of_kindAt_dir ((Node.dirAt_eq _ _).1 hd)
  have hdv : ∀ s ∈ d, validName s = true := fun s hs =>
    (Node.wf_get? _ _ _ hwf hesd).1 s (by simp [hs])
  refine ⟨recordAll [] (filesOfEntries skip [] es), ?_, ?_, ?_⟩
  · rw [readTree_eq dir skip w es hwf hes hskip]
  · rintro hfree ⟨f, c, hfile, hne⟩
    apply mem_treeKeys_of_pairs (f := f)
    rw [mem_readTree_pairs dir skip w es hwf hes]
    have hv := Node.valid_of_file hwf ((Node.fileAt_eq _ _ _).1 hfile)
    exact ⟨d, c, rfl, hfree, hfile, (relString_ne_iff hv.1 hv.2).2 hne⟩
  · intro hnone hkey
    rw [mem_treeKeys_iff_pairs (recordAll_nonempty _ _ (by simp))] at hkey
    obtain ⟨f, hf⟩ := hkey
    rw [mem_readTree_pairs dir skip w es hwf hes] at hf
    obtain ⟨d', c, hrel, -, hfile, -⟩ := hf
    have hv := Node.valid_of_file hwf ((Node.fileAt_eq _ _ _).1 hfile)
    have : d = d' := relString_injective hdv hv.1 hrel
    subst this
    rw [hnone f] at hfile
    simp at hfile

theorem readTree_directory_keys_witness :
    projectWorld.root.wf = true ∧
    projectWorld.root.dirAt (["home", "u", "proj"] ++ ["a"]) = true ∧
    ∃ tree, (readTree ["home", "u", "proj"] [".git"] projectWorld).1 = .ok tree ∧
      ((∀ s ∈ ["a"], s ∉ [".git"]) →
        (∃ f c, projectWorld.root.fileAt (["home", "u", "proj"] ++ ["a"] ++ [f]) = some c ∧
          ["a"] ≠ [f]) →
          relString ["a"] ∈ treeKeys tree) ∧
      ((∀ f, projectWorld.root.fileAt (["home", "u", "proj"] ++ ["a"] ++ [f]) = none) →
        relString ["a"] ∉ treeKeys tree) :=
  ⟨by decide, by decide,
    readTree_directory_keys ["home", "u", "proj"] [".git"] projectWorld ["a"]
      (by decide) (by decide) (by decide) (by decide)⟩

/-- C5: the tree `readTree(root, ".git")` returns has no key with a segment
`.git`, every key is the relative path of a directory none of whose segments
is `.git`, and every file it lists is a file of that directory; and every
file `createStash` reads from the source or writes into the stash lies in a
directory of the source none of whose segments is `.git`. -/
theorem readTree_skips_git (L : GoLib) (stashName : String) (dir fstashHome : Path) (w : World)
    (hwf : w.root.wf = true) (hroot : w.root.dirAt dir = true) :
    (∃ tree, (readTree dir [".git"] w).1 = .ok tree ∧
      ∀ key files, (key, files) ∈ tree →
        ".git" ∉ splitSegments key ∧
        ∃ d, key = relString d ∧ ".git" ∉ d ∧
          ∀ f ∈ files, (w.root.fileAt (dir ++ d ++ [f])).isSome = true) ∧
    (∀ call ∈ (createStash L stashName dir fstashHome w).2.trace,
      call ∈ w.trace ∨ call = .stat dir ∨ call = .walk dir ∨
      ∃ d f, ".git" ∉ d ∧ (w.root.fileAt (dir ++ d ++ [f])).isSome = true ∧
        (call = .mkdirAll (storagePath L stashName fstashHome ++ d) ∨
          call = .readFile (dir ++ d ++ [f]) ∨
          ∃ c, call = .writeFile (storagePath L stashName fstashHome ++ d ++ [f]) c)) := by
  refine ⟨?_, createStash_trace_aux L stashName dir fstashHome w hwf hroot⟩
  obtain ⟨es, hes⟩ := Node.get?_of_kindAt_dir ((Node.dirAt_eq _ _).1 hroot)
  by_cases hbase : [".git"].contains (pathBase dir) = true
  · refine ⟨[], by rw [readTree_skipped dir [".git"] w es hes hbase], ?_⟩
    intro key files h
    simp at h
  · have hbase' : [".git"].contains (pathBase dir) = false := by simpa using hbase
    refine ⟨recordAll [] (filesOfEntries [".git"] [] es),
      by rw [readTree_eq dir [".git"] w es hwf hes hbase'], ?_⟩
    intro key files hmem
    have hne : files ≠ [] := recordAll_nonempty _ _ (by simp) _ hmem
    obtain ⟨f0, hf0⟩ := List.exists_mem_of_ne_nil files hne
    obtain ⟨d, c, hrel, hfree, hfile, -⟩ :=
      (mem_readTree_pairs dir [".git"] w es hwf hes key f0).1 (mem_tree_pairs hmem hf0)
    have hv := Node.valid_of_file hwf ((Node.fileAt_eq _ _ _).1 hfile)
    have hgit : ".git" ∉ d := fun hg => hfree _ hg (by simp)
    refine ⟨?_, d, hrel, hgit, ?_⟩
    · rw [hrel]
      by_cases hd : d = []
      · subst hd
        decide
      · rw [splitSegments_relString d hd hv.1]
        exact hgit
    · intro f hf
      obtain ⟨d', c', hrel', -, hfile', -⟩ :=
        (mem_readTree_pairs dir [".git"] w es hwf hes key f).1 (mem_tree_pairs hmem hf)
      have hv' := Node.valid_of_file hwf ((Node.fileAt_eq _ _ _).1 hfile')
      have : d = d' := relString_injective hv.1 hv'.1 (hrel ▸ hrel')
      subst this
      rw [hfile']
      rfl

theorem readTree_skips_git_witness :
    projectWorld.root.wf = true ∧
    projectWorld.root.fileAt ["home", "u", "proj", ".git", "HEAD"] = some [114, 101, 102] ∧
    ((∃ tree, (readTree ["home", "u", "proj"] [".git"] projectWorld).1 = .ok tree ∧
      ∀ key files, (key, files) ∈ tree →
        ".git" ∉ splitSegments key ∧
        ∃ d, key = relString d ∧ ".git" ∉ d ∧
          ∀ f ∈ files,
            (projectWorld.root.fileAt (["home", "u", "proj"] ++ d ++ [f])).isSome = true) ∧
    (∀ call ∈ (createStash asciiLib "demo" ["home", "u", "proj"] ["home", "u", ".fstash"]
        projectWorld).2.trace,
      call ∈ projectWorld.trace ∨ call = .stat ["home", "u", "proj"] ∨
      call = .walk ["home", "u", "proj"] ∨
      ∃ d f, ".git" ∉ d ∧
        (projectWorld.root.fileAt (["home", "u", "proj"] ++ d ++ [f])).isSome = true ∧
        (call = .mkdirAll (storagePath asciiLib "demo" ["home", "u", ".fstash"] ++ d) ∨
          call = .readFile (["home", "u", "proj"] ++ d ++ [f]) ∨
          ∃ c, call = .writeFile
            (storagePath asciiLib "demo" ["home", "u", ".fstash"] ++ d ++ [f]) c))) :=
  ⟨by decide, by decide,
    readTree_skips_git asciiLib "demo" ["home", "u", "proj"] ["home", "u", ".fstash"]
      projectWorld (by decide) (by decide)⟩

theorem fileAt_pair_none_of_entries {n : Node} {T : Path} {es : List (String × Node)}
    (hT : n.get? T = some (.dir es))
    (h : ∀ e ∈ es, (Node.dir es).fileAt [e.1, e.1] = none) (f : String) :
    n.fileAt (T ++ [f, f]) = none := by
  have h1 : n.fileAt (T ++ [f, f]) = (Node.dir es).fileAt [f, f] := by
    unfold Node.fileAt
    rw [Node.get?_append, hT]
    rfl
  rw [h1]
  cases hl : es.lookup f with
  | none =>
    unfold Node.fileAt
    rw [Node.get?_dir_cons, hl]
    rfl
  | some c => exact h (f, c) (lookup_some_mem hl)

/-- C1 (amended): let the filesystem be well formed, the source an existing
directory not itself named `.git` that holds at least one file outside any
`.git` directory and no file `x/x` (a file named like the top-level directory
holding it), the name valid after normalization, the storage path and the
destination hold nothing, no prefix of either be a regular file, and neither
lie inside the other.  Then `createStash` followed by `expandStash` with
empty template data both succeed; the destination then holds, at the same
relative paths and with the same bytes, exactly the files of the source that
are not beneath a directory named `.git`, and its directories are exactly the
directories of those files and their ancestors. -/
theorem createStash_expandStash_roundTrip (L : GoLib) (stashName : String)
    (stashTree fstashHome workingDirectory : Path) (w : World)
    (hwf : w.root.wf = true)
    (hname : validateName (polishStashName L stashName) = true)
    (hsrc : w.root.dirAt stashTree = true) (hbase : pathBase stashTree ≠ ".git")
    (hhome : ∀ s ∈ fstashHome, validName s = true)
    (hwork : ∀ s ∈ workingDirectory, validName s = true)
    (hstore : w.root.holdsNothing (storagePath L stashName fstashHome) = true)
    (hstorepre : ∀ q, q <+: storagePath L stashName fstashHome → w.root.fileAt q = none)
    (hdest : w.root.holdsNothing workingDirectory = true)
    (hdestpre : ∀ q, q <+: workingDirectory → w.root.fileAt q = none)
    (hdisj : ¬ storagePath L stashName fstashHome <+: workingDirectory ∧
      ¬ workingDirectory <+: storagePath L stashName fstashHome)
    (hfile : ∃ d f, ".git" ∉ d ∧ (w.root.fileAt (stashTree ++ d ++ [f])).isSome = true)
    (hslip : ∀ f, w.root.fileAt (stashTree ++ [f, f]) = none) :
    (createStash L stashName stashTree fstashHome w).1 = .ok () ∧
    (expandStash L stashName fstashHome workingDirectory []
      (createStash L stashName stashTree fstashHome w).2).1 = .ok () ∧
    (∀ q, (expandStash L stashName fstashHome workingDirectory []
        (createStash L stashName stashTree fstashHome w).2).2.root.fileAt (workingDirectory ++ q)
      = if ".git" ∈ q.dropLast then none else w.root.fileAt (stashTree ++ q)) ∧
    (∀ q, (expandStash L stashName fstashHome workingDirectory []
        (createStash L stashName stashTree fstashHome w).2).2.root.dirAt (workingDirectory ++ q)
        = true ↔
      ∃ d f, ".git" ∉ d ∧ q <+: d ∧
        (w.root.fileAt (stashTree ++ d ++ [f])).isSome = true) := by
  obtain ⟨w1, w2, h1, h2, h3, h4⟩ := roundTrip_aux L stashName stashTree fstashHome
    workingDirectory w hwf hname hsrc hbase hhome hwork hstore hstorepre hdest hdestpre hdisj
    hfile hslip
  have e1 : (createStash L stashName stashTree fstashHome w).2 = w1 := by rw [h1]
  refine ⟨by rw [h1], ?_⟩
  rw [e1, h2]
  exact ⟨rfl, h3, h4⟩

theorem createStash_expandStash_roundTrip_witness :
    cleanWorld.root.wf = true ∧
    validateName (polishStashName asciiLib "Demo ") = true ∧
    cleanWorld.root.holdsNothing (storagePath asciiLib "Demo " ["home", "u", ".fstash"]) = true ∧
    cleanWorld.root.holdsNothing ["home", "u", "out"] = true ∧
    (createStash asciiLib "Demo " ["home", "u", "proj"] ["home", "u", ".fstash"]
      cleanWorld).1 = .ok () ∧
    (expandStash asciiLib "Demo " ["home", "u", ".fstash"] ["home", "u", "out"] []
      (createStash asciiLib "Demo " ["home", "u", "proj"] ["home", "u", ".fstash"]
        cleanWorld).2).1 = .ok () ∧
    (∀ q, (expandStash asciiLib "Demo " ["home", "u", ".fstash"] ["home", "u", "out"] []
        (createStash asciiLib "Demo " ["home", "u", "proj"] ["home", "u", ".fstash"]
          cleanWorld).2).2.root.fileAt (["home", "u", "out"] ++ q)
      = if ".git" ∈ q.dropLast then none
        else cleanWorld.root.fileAt (["home", "u", "proj"] ++ q)) ∧
    (∀ q, (expandStash asciiLib "Demo " ["home", "u", ".fstash"] ["home", "u", "out"] []
        (createStash asciiLib "Demo " ["home", "u", "proj"] ["home", "u", ".fstash"]
          cleanWorld).2).2.root.dirAt (["home", "u", "out"] ++ q) = true ↔
      ∃ d f, ".git" ∉ d ∧ q <+: d ∧
        (cleanWorld.root.fileAt (["home", "u", "proj"] ++ d ++ [f])).isSome = true) :=
  ⟨by decide, by decide, by decide, by decide,
    createStash_expandStash_roundTrip asciiLib "Demo " ["home", "u", "proj"]
      ["home", "u", ".fstash"] ["home", "u", "out"] cleanWorld
      (by decide) (by decide) (by decide) (by decide) (by decide) (by decide) (by decide)
      (fun q hq => (by decide : ∀ q ∈ List.inits
        (storagePath asciiLib "Demo " ["home", "u", ".fstash"]),
          cleanWorld.root.fileAt q = none) q ((List.mem_inits _ _).2 hq))
      (by decide)
      (fun q hq => (by decide : ∀ q ∈ List.inits ["home", "u", "out"],
          cleanWorld.root.fileAt q = none) q ((List.mem_inits _ _).2 hq))
      (by decide)
      ⟨["src"], "main.go", by decide, by decide⟩
      (fileAt_pair_none_of_entries (T := ["home", "u", "proj"]) rfl (by decide))⟩

/-! ## The operations on concrete filesystems -/

/-- C2: when the normalized name fails `validateName`, `createStash` returns
the invalid-stash-name error and the world it returns is the world it was
given: the same filesystem and the same trace, so no call that reads the
source tree or writes under `fstashHome` was made. -/
theorem createStash_invalid_name (L : GoLib) (stashName : String) (stashTree fstashHome : Path)
    (w : World) (h : validateName (polishStashName L stashName) = false) :
    createStash L stashName stashTree fstashHome w = (.error .invalidStashName, w) :=
  createStash_invalid_aux L stashName stashTree fstashHome w h

theorem createStash_invalid_name_witness :
    validateName (polishStashName asciiLib "bad name!") = false ∧
    createStash asciiLib "bad name!" ["home", "u", "proj"] ["home", "u", ".fstash"] projectWorld
      = (.error .invalidStashName, projectWorld) :=
  ⟨by decide, createStash_invalid_name asciiLib "bad name!" _ _ projectWorld (by decide)⟩

/-- C3 (the code at a failing input): the name `../../../..` fails
`validateName`, yet `deleteStash` returns no error for it and removes the
whole stash home, the stashes `alpha` and `beta` included. -/
theorem deleteStash_unvalidated_name :
    validateName (polishStashName asciiLib "../../../..") = false ∧
    storeWorld.root.fileAt
      ["home", "u", ".fstash", "0F", "2B", "05", "90", "alpha", "a.txt"] = some [97] ∧
    storeWorld.root.fileAt
      ["home", "u", ".fstash", "E3", "61", "41", "3C", "beta", "b.txt"] = some [98] ∧
    (deleteStash asciiLib "../../../.." ["home", "u", ".fstash"] storeWorld).1 = .ok () ∧
    (deleteStash asciiLib "../../../.." ["home", "u", ".fstash"] storeWorld).2.trace
      = [.stat ["home", "u", ".fstash"], .removeAll ["home", "u", ".fstash"]] ∧
    (deleteStash asciiLib "../../../.." ["home", "u", ".fstash"] storeWorld).2.root.existsAt
      ["home", "u", ".fstash"] = false := by
  refine ⟨by decide, by decide, by decide, by decide, by decide, by decide⟩

/-- C4 (the code at a failing input): the file `a/a` of the project directory
lies beneath no skipped directory, and `readTree` returns a tree in which the
list of the key `a` holds `b` only. -/
theorem readTree_misses_file :
    projectWorld.root.fileAt ["home", "u", "proj", "a", "a"] = some [1] ∧
    (readTree ["home", "u", "proj"] [] projectWorld).1
      = .ok [(".git", ["HEAD"]), ("a", ["b"]), (".", ["main.go"])] := by
  refine ⟨by decide, by decide⟩

/-- C6 (the code at a failing input): at depth 1 `listDepth` lists the root
itself, as `.`, before the two directories of depth 1; at depth 5 it lists
the two stash names, and at depth 0 nothing. -/
theorem listDepth_lists_root :
    (listDepth ["home", "u", ".fstash"] 1 storeWorld).1 = .ok [".", "0F", "E3"] ∧
    (listDepth ["home", "u", ".fstash"] 5 storeWorld).1 = .ok ["alpha", "beta"] ∧
    (listDepth ["home", "u", ".fstash"] 0 storeWorld).1 = .ok [] := by
  refine ⟨by decide, by decide, by decide⟩

/-- C7 (the code at a failing input): for the file `my.test.t` the extension
is `.t` and the key is `myest`, both occurrences of `.t` being removed, so
the key followed by the extension is not the base name; `expandTree` looks
the template data up under that key. -/
theorem templateKey_removes_every_occurrence :
    filepathExt "my.test.t" = ".t" ∧
    templateKey ["stash", "my.test.t"] = "myest" ∧
    templateKey ["stash", "my.test.t"] ++ filepathExt "my.test.t" ≠ "my.test.t" ∧
    templateKey ["stash", "notes.txt.txt"] = "notes" ∧
    ((expandTree echoKeyLib [(".", ["my.test.t"])] ["work"] ["stash"]
        [("myest", "\x7b\x7d")] templateWorld).2.root.fileAt ["work", "my.test.t"]
      = some (goBytes "myest")) := by
  refine ⟨by decide, by decide, by decide, by decide, by decide⟩

/-- C1 (counterexample): the project directory exists, the name `demo` is
valid, neither the storage path nor the destination exists; `createStash` and
`expandStash` both succeed, and the directory `docs` of the source is missing
from the destination. -/
theorem roundTrip_loses_empty_directory :
    validateName (polishStashName asciiLib "demo") = true ∧
    cleanWorld.root.dirAt ["home", "u", "proj"] = true ∧
    hashParts (hash (polishStashName asciiLib "demo")) = .ok ["E7", "92", "C8", "F1"] ∧
    cleanWorld.root.existsAt ["home", "u", ".fstash", "E7"] = false ∧
    cleanWorld.root.existsAt ["home", "u", "out"] = false ∧
    (createStash asciiLib "demo" ["home", "u", "proj"] ["home", "u", ".fstash"]
      cleanWorld).1 = .ok () ∧
    (expandStash asciiLib "demo" ["home", "u", ".fstash"] ["home", "u", "out"] []
      (createStash asciiLib "demo" ["home", "u", "proj"] ["home", "u", ".fstash"]
        cleanWorld).2).1 = .ok () ∧
    cleanWorld.root.dirAt ["home", "u", "proj", "docs"] = true ∧
    (expandStash asciiLib "demo" ["home", "u", ".fstash"] ["home", "u", "out"] []
      (createStash asciiLib "demo" ["home", "u", "proj"] ["home", "u", ".fstash"]
        cleanWorld).2).2.root.existsAt ["home", "u", "out", "docs"] = false := by
  refine ⟨by decide, by decide, by decide, by decide, by decide, by decide, by decide,
    by decide, by decide⟩

/-- C9 (counterexample): `docs` is a directory beneath the root that is not
pruned, and the tree `readTree` returns has no key `docs`. -/
theorem readTree_no_key_for_empty_directory :
    cleanWorld.root.dirAt ["home", "u", "proj", "docs"] = true ∧
    (readTree ["home", "u", "proj"] [".git"] cleanWorld).1
      = .ok [(".", ["README"]), ("src", ["main.go"])] ∧
    "docs" ∉ treeKeys [(".", ["README"]), ("src", ["main.go"])] := by
  refine ⟨by decide, by decide, by decide⟩

end Fstash
